import Mathlib

/-!
HyperLogLog cardinality estimator: byte-per-register and bit-packed variants.

A shallow embedding of `normal_hyper/main.cpp` (class `HyperLogLog`) and
`upgraded_hyper/main.cpp` (class `HyperLogLogOptimized`), with the hash
function `HashFuncGen::hash` that both files carry in identical text.

Conventions.
* `uint32_t` and `uint8_t` values are natural numbers, reduced modulo
  `2^32` / `2^8` at every operation that can leave the range.
* A `std::string` is the list of the `int` values of its `char`s, that is
  the values the characters have after integral promotion.
* `double` arithmetic is read in exact arithmetic: rational numbers up to
  the logarithm, and a field `R` with a caller-supplied logarithm after it.
* Operations for which C++ defines no result (a shift count out of range,
  an index past the end of a container) return `Except.error`.
-/

namespace HLL

/-- Points at which the source has no defined result.  None of them is an
error the program reports: the source has no error path at all. -/
inductive Fault where
  /-- A shift whose count is negative or not smaller than the width, or whose
  signed result is not representable. -/
  | undefinedShift
  /-- An `operator[]` access past the end of a `std::vector` or `std::bitset`. -/
  | outOfRange
  /-- The loop of `get_rho` did not finish within the given number of
  evaluations of its condition. -/
  | fuelExhausted
  deriving DecidableEq, Repr

/-- Conversion of an `int` to `uint32_t`: reduction modulo `2^32`. -/
def toU32 (c : Int) : Nat := (c % 4294967296).toNat

/-- The `int` value of a `char` holding the byte `byte`, after integral
promotion.  Where plain `char` is signed, bytes `128..255` are negative. -/
def charOfByte (signedChar : Bool) (byte : Nat) : Int :=
  if signedChar && decide (128 ≤ byte) then (byte : Int) - 256 else (byte : Int)

namespace HashFuncGen

/-- Body of the loop of `hash`: `h ^= c; h *= 0x5bd1e995; h ^= h >> 15`. -/
def mix (h : Nat) (c : Int) : Nat :=
  let h1 := h ^^^ toU32 c
  let h2 := (h1 * 0x5bd1e995) % 4294967296
  h2 ^^^ (h2 >>> 15)

/-- The final three statements of `hash`. -/
def finalize (h : Nat) : Nat :=
  let h1 := h ^^^ (h >>> 13)
  let h2 := (h1 * 0x5bd1e995) % 4294967296
  h2 ^^^ (h2 >>> 15)

/-- Embedding of `HashFuncGen::hash`. -/
def hash (key : List Int) : Nat :=
  finalize (key.foldl mix 0x9747b28c)

/-- Reference algorithm as the specification words it, over bytes taken as
unsigned values: `h ^= c; h *= 0x5bd1e995 (mod 2^32); h ^= h >> 15`. -/
def ref_mix (h : Nat) (c : Nat) : Nat :=
  let h1 := h ^^^ c
  let h2 := (h1 * 0x5bd1e995) % 4294967296
  h2 ^^^ (h2 >>> 15)

/-- Reference hash of the specification over a sequence of unsigned bytes. -/
def hash_ref (bytes : List Nat) : Nat :=
  let h := bytes.foldl ref_mix 0x9747b28c
  let h1 := h ^^^ (h >>> 13)
  let h2 := (h1 * 0x5bd1e995) % 4294967296
  h2 ^^^ (h2 >>> 15)

end HashFuncGen

/-- Count of a shift by `32 - b` as `add` uses it: `x >> (32 - b)` on a
`uint32_t` and `1 << (32 - b)` on an `int`, followed by `- 1`.  All three are
defined exactly for counts `0..30`. -/
def shift_count (sh : Int) : Except Fault Nat :=
  if 0 ≤ sh ∧ sh < 31 then .ok sh.toNat else .error .undefinedShift

/-! ## Byte-per-register estimator (`normal_hyper/main.cpp`) -/

/-- State of `class HyperLogLog`. -/
structure HyperLogLog where
  b : Int
  m : Int
  alphaMM : ℚ
  registers : List Int
  deriving DecidableEq

namespace HyperLogLog

/-- Embedding of `HyperLogLog::get_alpha`. -/
def get_alpha (m : Int) : ℚ :=
  if m = 16 then 0.673
  else if m = 32 then 0.697
  else if m = 64 then 0.709
  else 0.7213 / (1.0 + 1.079 / (m : ℚ))

/-- The loop `while ((w & 1) == 0) { w >>= 1; rho++; }` of `get_rho`; `fuel`
bounds the number of times the condition is evaluated. -/
def get_rho_loop : Nat → Nat → Int → Except Fault Int
  | 0, _, _ => .error .fuelExhausted
  | fuel + 1, w, rho =>
    if w &&& 1 = 0 then get_rho_loop fuel (w >>> 1) (rho + 1) else .ok rho

/-- Embedding of `HyperLogLog::get_rho`, the loop run with `fuel`. -/
def get_rho_fuel (fuel : Nat) (b : Int) (w : Nat) : Except Fault Int :=
  if w = 0 then .ok (32 - b + 1) else get_rho_loop fuel w 1

/-- Embedding of `HyperLogLog::get_rho`; `w` has 32 bits, so 32 evaluations
of the loop condition are provided. -/
def get_rho (b : Int) (w : Nat) : Except Fault Int := get_rho_fuel 32 b w

/-- Embedding of the constructor `HyperLogLog(int b_bits)`.  The source has
no validation; `1 << b_bits` on `int` is defined for `0 <= b_bits <= 30`. -/
def new (b_bits : Int) : Except Fault HyperLogLog :=
  if 0 ≤ b_bits ∧ b_bits < 31 then
    let m : Int := 2 ^ b_bits.toNat
    .ok { b := b_bits, m := m, alphaMM := get_alpha m * m * m,
          registers := List.replicate m.toNat 0 }
  else .error .undefinedShift

/-- The statement `registers[j] = std::max(registers[j], v)` of `add`. -/
def store_max (regs : List Int) (j : Nat) (v : Int) : Except Fault (List Int) :=
  if h : j < regs.length then .ok (regs.set j (max (regs.get ⟨j, h⟩) v))
  else .error .outOfRange

/-- Embedding of `HyperLogLog::add`. -/
def add (h : HyperLogLog) (s : List Int) : Except Fault HyperLogLog := do
  let x := HashFuncGen.hash s
  let sh ← shift_count (32 - h.b)
  let j := x >>> sh
  let mask := (1 <<< sh) - 1
  let w := x &&& mask
  let sentry := 1 <<< sh
  let rho ← get_rho h.b (w ||| sentry)
  let regs ← store_max h.registers j rho
  pure { h with registers := regs }

/-- The first loop of `estimate`: `sum_inv += pow(2.0, -val)`. -/
def sum_inv (regs : List Int) : ℚ :=
  regs.foldl (fun acc val => acc + (2 : ℚ) ^ (-val)) 0

/-- The second loop of `estimate`: `if (val == 0) V++`. -/
def count_zero (regs : List Int) : Int :=
  regs.foldl (fun V val => if val = 0 then V + 1 else V) 0

/-- Embedding of `HyperLogLog::estimate`, with `ln` for `std::log`. -/
def estimate {R : Type} [Field R] (ln : R → R) (h : HyperLogLog) : R :=
  let E : ℚ := h.alphaMM / sum_inv h.registers
  if E ≤ 2.5 * (h.m : ℚ) then
    let V := count_zero h.registers
    if V > 0 then (h.m : R) * ln ((h.m : R) / (V : R)) else (E : R)
  else (E : R)

end HyperLogLog

/-! ## Bit-packed estimator (`upgraded_hyper/main.cpp`) -/

def B_BITS : Nat := 10
def M_REGS : Nat := 1 <<< B_BITS
def BITS_PER_REG : Nat := 5
def TOTAL_BITS : Nat := M_REGS * BITS_PER_REG

/-- A `std::bitset<TOTAL_BITS>`: one boolean per position below `TOTAL_BITS`. -/
abbrev Bitset : Type := Fin TOTAL_BITS → Bool

/-- Read access `registers[pos]`. -/
def Bitset.read (r : Bitset) (pos : Nat) : Except Fault Bool :=
  if h : pos < TOTAL_BITS then .ok (r ⟨pos, h⟩) else .error .outOfRange

/-- Write access `registers[pos] = v`. -/
def Bitset.write (r : Bitset) (pos : Nat) (v : Bool) : Except Fault Bitset :=
  if h : pos < TOTAL_BITS then .ok (Function.update r ⟨pos, h⟩ v)
  else .error .outOfRange

/-- State of `class HyperLogLogOptimized`. -/
structure HyperLogLogOptimized where
  alphaMM : ℚ
  registers : Bitset

namespace HyperLogLogOptimized

/-- Embedding of `HyperLogLogOptimized::get_alpha`. -/
def get_alpha (m : Int) : ℚ :=
  if m = 16 then 0.673
  else if m = 32 then 0.697
  else if m = 64 then 0.709
  else 0.7213 / (1.0 + 1.079 / (m : ℚ))

/-- Embedding of `set_val`: bit `k` of `val` goes to position
`idx * BITS_PER_REG + k`, for `k = 0 .. BITS_PER_REG - 1`.  The `int idx` of
the source is a natural number here: its callers pass `j = x >> 22` and loop
counters from 0, never a negative value. -/
def set_val (r : Bitset) (idx : Nat) (val : Nat) : Except Fault Bitset :=
  (List.range BITS_PER_REG).foldlM
    (fun acc k => acc.write (idx * BITS_PER_REG + k) (decide ((val >>> k) &&& 1 ≠ 0))) r

/-- Embedding of `get_val`: `if (registers[start + k]) val |= (1 << k)`, the
accumulator being a `uint8_t`. -/
def get_val (r : Bitset) (idx : Nat) : Except Fault Nat :=
  (List.range BITS_PER_REG).foldlM
    (fun val k => do
      let bit ← r.read (idx * BITS_PER_REG + k)
      pure (if bit then (val ||| (1 <<< k)) % 256 else val)) 0

/-- The loop of `get_rho` with a `uint8_t` counter. -/
def get_rho_loop : Nat → Nat → Nat → Except Fault Nat
  | 0, _, _ => .error .fuelExhausted
  | fuel + 1, w, rho =>
    if w &&& 1 = 0 then get_rho_loop fuel (w >>> 1) ((rho + 1) % 256) else .ok rho

/-- Embedding of `HyperLogLogOptimized::get_rho`, the loop run with `fuel`. -/
def get_rho_fuel (fuel : Nat) (w : Nat) : Except Fault Nat :=
  if w = 0 then .ok ((32 - B_BITS + 1) % 256) else get_rho_loop fuel w 1

/-- Embedding of `HyperLogLogOptimized::get_rho` with 32 evaluations of the
loop condition. -/
def get_rho (w : Nat) : Except Fault Nat := get_rho_fuel 32 w

/-- Embedding of the constructor `HyperLogLogOptimized()`. -/
def new : HyperLogLogOptimized :=
  { alphaMM := get_alpha M_REGS * M_REGS * M_REGS, registers := fun _ => false }

/-- The guarded store of `add`: `if (rho > get_val(j)) set_val(j, rho)`. -/
def set_if_greater (r : Bitset) (j : Nat) (rho : Nat) : Except Fault Bitset := do
  let cur ← get_val r j
  if rho > cur then set_val r j rho else pure r

/-- Embedding of `HyperLogLogOptimized::add`. -/
def add (h : HyperLogLogOptimized) (s : List Int) : Except Fault HyperLogLogOptimized := do
  let x := HashFuncGen.hash s
  let j := x >>> (32 - B_BITS)
  let mask := (1 <<< (32 - B_BITS)) - 1
  let w := x &&& mask
  let sentry := 1 <<< (32 - B_BITS)
  let rho0 ← get_rho (w ||| sentry)
  let rho := if rho0 > 31 then 31 else rho0
  let regs ← set_if_greater h.registers j rho
  pure { h with registers := regs }

/-- The first loop of `estimate`: `sum_inv += pow(2.0, -get_val(j))`. -/
def sum_inv (r : Bitset) : Except Fault ℚ :=
  (List.range M_REGS).foldlM
    (fun acc j => do
      let v ← get_val r j
      pure (acc + (2 : ℚ) ^ (-(v : Int)))) 0

/-- The second loop of `estimate`: `if (get_val(j) == 0) V++`. -/
def count_zero (r : Bitset) : Except Fault Int :=
  (List.range M_REGS).foldlM
    (fun V j => do
      let v ← get_val r j
      pure (if v = 0 then V + 1 else V)) 0

/-- Embedding of `HyperLogLogOptimized::estimate`, with `ln` for `std::log`. -/
def estimate {R : Type} [Field R] (ln : R → R) (h : HyperLogLogOptimized) :
    Except Fault R := do
  let s ← sum_inv h.registers
  let E : ℚ := h.alphaMM / s
  if E ≤ 2.5 * (M_REGS : ℚ) then
    let V ← count_zero h.registers
    if V > 0 then pure ((M_REGS : R) * ln ((M_REGS : R) / (V : R))) else pure (E : R)
  else pure (E : R)

end HyperLogLogOptimized

/-- Run `add` over a sequence of strings, byte-per-register variant. -/
def HyperLogLog.addAll (h : HyperLogLog) (ss : List (List Int)) : Except Fault HyperLogLog :=
  ss.foldlM HyperLogLog.add h

/-- Run `add` over a sequence of strings, bit-packed variant. -/
def HyperLogLogOptimized.addAll (h : HyperLogLogOptimized) (ss : List (List Int)) :
    Except Fault HyperLogLogOptimized :=
  ss.foldlM HyperLogLogOptimized.add h

/-! ## Definitions used in the statements and proofs -/

/-- Bit at a position of a bitset, `false` past the end. -/
def bitAt (r : Bitset) (pos : Nat) : Bool :=
  if h : pos < TOTAL_BITS then r ⟨pos, h⟩ else false

/-- Value of five bits, least significant first. -/
def bitsVal (b0 b1 b2 b3 b4 : Bool) : Nat :=
  b0.toNat + 2 * b1.toNat + 4 * b2.toNat + 8 * b3.toNat + 16 * b4.toNat

/-- Content of slot `idx`, read off the bits directly. -/
def slot (r : Bitset) (idx : Nat) : Nat :=
  bitsVal (bitAt r (idx * BITS_PER_REG + 0)) (bitAt r (idx * BITS_PER_REG + 1))
    (bitAt r (idx * BITS_PER_REG + 2)) (bitAt r (idx * BITS_PER_REG + 3))
    (bitAt r (idx * BITS_PER_REG + 4))

/-- Bitset in which the five bits of slot `idx` are those of `val`. -/
def setSlot (r : Bitset) (idx val : Nat) : Bitset := fun p =>
  if idx * BITS_PER_REG ≤ p.val ∧ p.val < idx * BITS_PER_REG + BITS_PER_REG then
    decide ((val >>> (p.val - idx * BITS_PER_REG)) &&& 1 ≠ 0)
  else r p

/-- Well-formed state of the byte-per-register estimator: the precision is in
the supported range and there are `m = 2^b` registers. -/
def HyperLogLog.WF (h : HyperLogLog) : Prop :=
  4 ≤ h.b ∧ h.b ≤ 16 ∧ h.m = 2 ^ h.b.toNat ∧ h.registers.length = 2 ^ h.b.toNat

/-- The two stores hold the same logical values: 1024 integer cells, cell `i`
equal to the content of slot `i` of the bitset. -/
def SameStore (regs : List Int) (r : Bitset) : Prop :=
  regs.length = M_REGS ∧ ∀ i, i < M_REGS → regs[i]? = some ((slot r i : Nat) : Int)

/-- Sequence of guarded updates on the byte-per-register store. -/
def byte_updates (regs : List Int) (ops : List (Nat × Nat)) : Except Fault (List Int) :=
  ops.foldlM (fun acc op => HyperLogLog.store_max acc op.1 (op.2 : Int)) regs

/-- Sequence of guarded updates on the bit-packed store. -/
def packed_updates (r : Bitset) (ops : List (Nat × Nat)) : Except Fault Bitset :=
  ops.foldlM (fun acc op => HyperLogLogOptimized.set_if_greater acc op.1 op.2) r

/-- The two estimators hold the same logical state. -/
def SameState (hn : HyperLogLog) (ho : HyperLogLogOptimized) : Prop :=
  hn.b = 10 ∧ hn.m = 1024 ∧ hn.alphaMM = ho.alphaMM ∧ SameStore hn.registers ho.registers

/-- Every cell of `a` is at most the same cell of `b`. -/
def RegsLe (a b : List Int) : Prop :=
  a.length = b.length ∧
    ∀ (i : Nat) (v : Int), a[i]? = some v → ∃ v2 : Int, b[i]? = some v2 ∧ v ≤ v2

/-- Every slot of `r`, as `get_val` reads it, is at most the same slot of `r2`. -/
def SlotsLe (r r2 : Bitset) : Prop :=
  ∀ i, i < M_REGS → ∃ v v2, HyperLogLogOptimized.get_val r i = .ok v ∧
    HyperLogLogOptimized.get_val r2 i = .ok v2 ∧ v ≤ v2

/-- A small well-formed state: precision 4, sixteen registers. -/
def sample16 : HyperLogLog :=
  { b := 4, m := 16, alphaMM := HyperLogLog.get_alpha 16 * 16 * 16,
    registers := [0, 3, 0, 0, 1, 0, 0, 0, 0, 0, 7, 0, 0, 0, 0, 2] }

/-- Every register of the byte-per-register store lies in `[0, 32 - b + 1]`. -/
def RegsBounded (b : Int) (regs : List Int) : Prop :=
  ∀ (i : Nat) (v : Int), regs[i]? = some v → 0 ≤ v ∧ v ≤ 32 - b + 1

/-- Every slot of the bit-packed store holds at most `bound`. -/
def SlotsBounded (bound : Nat) (r : Bitset) : Prop :=
  ∀ j, j < M_REGS → slot r j ≤ bound

/-- Harmonic sum as the specification words it: the sum over all registers of
`2^(-register[k])`. -/
def sum_inv_spec (regs : List Int) : ℚ :=
  (regs.map (fun v => (2 : ℚ) ^ (-v))).sum

/-- The estimate as the specification words it: with `E = alphaMM / sum_inv`
and `V` the number of registers equal to 0, the result is `m * ln(m / V)` when
`E <= 2.5 * m` and `V > 0`, and `E` otherwise. -/
def estimate_spec {R : Type} [Field R] (ln : R → R) (m : Int) (alphaMM : ℚ)
    (regs : List Int) : R :=
  if alphaMM / sum_inv_spec regs ≤ 2.5 * (m : ℚ) ∧ regs.count 0 > 0 then
    (m : R) * ln ((m : R) / ((regs.count 0 : Nat) : R))
  else ((alphaMM / sum_inv_spec regs : ℚ) : R)

/-- The 1024 slot contents of a bitset, in index order. -/
def slots_list (r : Bitset) : List Int :=
  (List.range M_REGS).map (fun j => ((slot r j : Nat) : Int))

/-- The bias constant as the specification words it. -/
def alpha_spec (m : Int) : ℚ :=
  if m = 16 then 673 / 1000
  else if m = 32 then 697 / 1000
  else if m = 64 then 709 / 1000
  else (7213 / 10000) / (1 + (1079 / 1000) / (m : ℚ))

/-- Position of the lowest set bit of `w`, counted from 0; 0 for `w = 0`. -/
def lowest_set_bit (w : Nat) : Nat :=
  if h : w ≠ 0 then Nat.find (Nat.ne_zero_implies_bit_true h) else 0

/-- The rank as the specification words it: `sh + 1` when the `sh` low bits
`w` are all zero, otherwise the 1-indexed position of the lowest set bit. -/
def rank_spec (sh : Nat) (w : Nat) : Nat :=
  if w = 0 then sh + 1 else lowest_set_bit w + 1

/-- Ranks of the strings of `ss` that fall in bucket `j`, for shift `sh = 32 - b`. -/
def ranks (sh : Nat) (ss : List (List Int)) (j : Nat) : List Nat :=
  (ss.filter (fun s => decide (HashFuncGen.hash s >>> sh = j))).map
    (fun s => rank_spec sh (HashFuncGen.hash s &&& ((1 <<< sh) - 1)))

/-- Closed form of register `j`: the maximum of the ranks of the added strings
in bucket `j`, and 0 when there is none. -/
def closed_form (sh : Nat) (ss : List (List Int)) (j : Nat) : Nat :=
  (ranks sh ss j).foldl max 0

/-! ## Lemmas and theorems -/

/-! ## Lemmas on the bit-packed store -/

theorem range_bits : List.range BITS_PER_REG = [0, 1, 2, 3, 4] := by decide

theorem slot_pos_lt {idx k : Nat} (hi : idx < M_REGS) (hk : k < BITS_PER_REG) :
    idx * BITS_PER_REG + k < TOTAL_BITS := by
  have h1 : M_REGS = 1024 := by decide
  have h2 : BITS_PER_REG = 5 := rfl
  have h3 : TOTAL_BITS = 5120 := by decide
  rw [h1] at hi
  rw [h2] at hk
  rw [h2, h3]
  omega

theorem read_of_lt (r : Bitset) {pos : Nat} (h : pos < TOTAL_BITS) :
    r.read pos = .ok (bitAt r pos) := by
  simp [Bitset.read, bitAt, h]

theorem write_of_lt (r : Bitset) {pos : Nat} (h : pos < TOTAL_BITS) (v : Bool) :
    r.write pos v = .ok (Function.update r ⟨pos, h⟩ v) := by
  simp [Bitset.write, h]

theorem slot_lt (r : Bitset) (idx : Nat) : slot r idx < 32 := by
  unfold slot bitsVal
  cases bitAt r (idx * BITS_PER_REG + 0) <;> cases bitAt r (idx * BITS_PER_REG + 1) <;>
  cases bitAt r (idx * BITS_PER_REG + 2) <;> cases bitAt r (idx * BITS_PER_REG + 3) <;>
  cases bitAt r (idx * BITS_PER_REG + 4) <;> decide

theorem get_val_eq (r : Bitset) {idx : Nat} (hi : idx < M_REGS) :
    HyperLogLogOptimized.get_val r idx = .ok (slot r idx) := by
  have h0 := read_of_lt r (slot_pos_lt hi (show 0 < BITS_PER_REG by decide))
  have h1 := read_of_lt r (slot_pos_lt hi (show 1 < BITS_PER_REG by decide))
  have h2 := read_of_lt r (slot_pos_lt hi (show 2 < BITS_PER_REG by decide))
  have h3 := read_of_lt r (slot_pos_lt hi (show 3 < BITS_PER_REG by decide))
  have h4 := read_of_lt r (slot_pos_lt hi (show 4 < BITS_PER_REG by decide))
  simp only [HyperLogLogOptimized.get_val, range_bits, List.foldlM_cons, List.foldlM_nil,
    h0, h1, h2, h3, h4, bind, Except.bind, pure, Except.pure, slot, bitsVal]
  cases bitAt r (idx * BITS_PER_REG + 0) <;> cases bitAt r (idx * BITS_PER_REG + 1) <;>
  cases bitAt r (idx * BITS_PER_REG + 2) <;> cases bitAt r (idx * BITS_PER_REG + 3) <;>
  cases bitAt r (idx * BITS_PER_REG + 4) <;> rfl

theorem set_val_eq (r : Bitset) {idx : Nat} (hi : idx < M_REGS) (val : Nat) :
    HyperLogLogOptimized.set_val r idx val = .ok (setSlot r idx val) := by
  have p0 := slot_pos_lt hi (show 0 < BITS_PER_REG by decide)
  have p1 := slot_pos_lt hi (show 1 < BITS_PER_REG by decide)
  have p2 := slot_pos_lt hi (show 2 < BITS_PER_REG by decide)
  have p3 := slot_pos_lt hi (show 3 < BITS_PER_REG by decide)
  have p4 := slot_pos_lt hi (show 4 < BITS_PER_REG by decide)
  simp only [HyperLogLogOptimized.set_val, range_bits, List.foldlM_cons, List.foldlM_nil,
    write_of_lt _ p0, write_of_lt _ p1, write_of_lt _ p2, write_of_lt _ p3, write_of_lt _ p4,
    bind, Except.bind, pure, Except.pure]
  congr 1
  funext p
  have hB : BITS_PER_REG = 5 := rfl
  simp only [setSlot, Function.update_apply, Fin.ext_iff, hB]
  by_cases c4 : p.val = idx * 5 + 4
  · simp [c4]
  by_cases c3 : p.val = idx * 5 + 3
  · simp [c3]
  by_cases c2 : p.val = idx * 5 + 2
  · simp [c2]
  by_cases c1 : p.val = idx * 5 + 1
  · simp [c1]
  by_cases c0 : p.val = idx * 5
  · simp [c0]
  have : ¬ (idx * 5 ≤ p.val ∧ p.val < idx * 5 + 5) := by omega
  simp [c4, c3, c2, c1, c0, this]

theorem bitAt_setSlot_in (r : Bitset) {idx : Nat} (hi : idx < M_REGS) (val : Nat) {k : Nat}
    (hk : k < BITS_PER_REG) :
    bitAt (setSlot r idx val) (idx * BITS_PER_REG + k) = decide ((val >>> k) &&& 1 ≠ 0) := by
  have hp := slot_pos_lt hi hk
  simp [bitAt, hp, setSlot, hk]

theorem bitAt_setSlot_out (r : Bitset) (idx val : Nat) {pos : Nat}
    (hp : ¬ (idx * BITS_PER_REG ≤ pos ∧ pos < idx * BITS_PER_REG + BITS_PER_REG)) :
    bitAt (setSlot r idx val) pos = bitAt r pos := by
  unfold bitAt
  by_cases h : pos < TOTAL_BITS
  · simp only [h, dite_true, setSlot]
    rw [if_neg hp]
  · simp [h]

theorem bitsVal_of_bits (val : Nat) (hv : val < 32) :
    bitsVal (decide ((val >>> 0) &&& 1 ≠ 0)) (decide ((val >>> 1) &&& 1 ≠ 0))
      (decide ((val >>> 2) &&& 1 ≠ 0)) (decide ((val >>> 3) &&& 1 ≠ 0))
      (decide ((val >>> 4) &&& 1 ≠ 0)) = val := by
  interval_cases val <;> decide

theorem slot_setSlot_same (r : Bitset) {idx : Nat} (hi : idx < M_REGS) {val : Nat}
    (hv : val < 32) : slot (setSlot r idx val) idx = val := by
  unfold slot
  rw [bitAt_setSlot_in r hi val (show 0 < BITS_PER_REG by decide),
    bitAt_setSlot_in r hi val (show 1 < BITS_PER_REG by decide),
    bitAt_setSlot_in r hi val (show 2 < BITS_PER_REG by decide),
    bitAt_setSlot_in r hi val (show 3 < BITS_PER_REG by decide),
    bitAt_setSlot_in r hi val (show 4 < BITS_PER_REG by decide)]
  exact bitsVal_of_bits val hv

theorem slot_setSlot_other (r : Bitset) (idx val : Nat) {idx2 : Nat} (hne : idx2 ≠ idx) :
    slot (setSlot r idx val) idx2 = slot r idx2 := by
  have hB : BITS_PER_REG = 5 := rfl
  unfold slot
  rw [bitAt_setSlot_out, bitAt_setSlot_out, bitAt_setSlot_out, bitAt_setSlot_out,
    bitAt_setSlot_out] <;> rw [hB] <;> omega

/-! ## Lemmas on the hash value and the rank loop -/

theorem finalize_lt (h : Nat) : HashFuncGen.finalize h < 4294967296 := by
  unfold HashFuncGen.finalize
  have h2 : (h ^^^ h >>> 13) * 0x5bd1e995 % 4294967296 < 2 ^ 32 :=
    Nat.mod_lt _ (by norm_num)
  have h3 : ((h ^^^ h >>> 13) * 0x5bd1e995 % 4294967296) >>> 15 < 2 ^ 32 :=
    lt_of_le_of_lt (by rw [Nat.shiftRight_eq_div_pow]; exact Nat.div_le_self _ _) h2
  exact Nat.xor_lt_two_pow h2 h3

theorem hash_lt (s : List Int) : HashFuncGen.hash s < 4294967296 :=
  finalize_lt _

theorem shiftRight_lt_of_lt {x sh n : Nat} (hx : x < 2 ^ (sh + n)) : x >>> sh < 2 ^ n := by
  rw [Nat.shiftRight_eq_div_pow]
  apply Nat.div_lt_of_lt_mul
  rw [← pow_add]
  exact hx

theorem and_mask_lt (x sh : Nat) : x &&& ((1 <<< sh) - 1) < 2 ^ sh := by
  rw [Nat.one_shiftLeft]
  exact Nat.and_lt_two_pow x (Nat.sub_lt (Nat.two_pow_pos sh) Nat.one_pos)

theorem and_one_eq_zero_iff (w : Nat) : w &&& 1 = 0 ↔ w.testBit 0 = false := by
  rw [Nat.and_one_is_mod, Nat.testBit_zero]
  simp

theorem exists_lowest_bit {w : Nat} (hw : w ≠ 0) :
    ∃ k, w.testBit k = true ∧ ∀ i < k, w.testBit i = false := by
  have hex : ∃ k, w.testBit k = true := Nat.ne_zero_implies_bit_true hw
  refine ⟨Nat.find hex, Nat.find_spec hex, ?_⟩
  intro i hi
  have := Nat.find_min hex hi
  simpa using this

theorem lowest_bit_lt {w n k : Nat} (hw : w < 2 ^ n) (hk : w.testBit k = true) : k < n := by
  by_contra hcon
  have hle : n ≤ k := Nat.le_of_not_lt hcon
  have : w < 2 ^ k := lt_of_lt_of_le hw (Nat.pow_le_pow_right (by norm_num) hle)
  rw [Nat.testBit_lt_two_pow this] at hk
  exact Bool.false_ne_true hk

theorem normal_loop_eq (k : Nat) : ∀ (fuel w : Nat) (rho : Int), k < fuel →
    w.testBit k = true → (∀ i < k, w.testBit i = false) →
    HyperLogLog.get_rho_loop fuel w rho = .ok (rho + k) := by
  induction k with
  | zero =>
    intro fuel w rho hf hk _
    obtain ⟨f, rfl⟩ : ∃ f, fuel = f + 1 := ⟨fuel - 1, by omega⟩
    have hne : ¬ (w &&& 1 = 0) := by
      rw [and_one_eq_zero_iff, hk]; simp
    simp only [HyperLogLog.get_rho_loop, if_neg hne]
    simp
  | succ k ih =>
    intro fuel w rho hf hk hlow
    obtain ⟨f, rfl⟩ : ∃ f, fuel = f + 1 := ⟨fuel - 1, by omega⟩
    have h0 : w &&& 1 = 0 := (and_one_eq_zero_iff w).2 (hlow 0 (Nat.succ_pos k))
    have hk2 : (w >>> 1).testBit k = true := by
      rw [Nat.testBit_shiftRight, Nat.add_comm]; exact hk
    have hlow2 : ∀ i < k, (w >>> 1).testBit i = false := by
      intro i hi
      rw [Nat.testBit_shiftRight, Nat.add_comm]
      exact hlow (i + 1) (Nat.succ_lt_succ hi)
    have := ih f (w >>> 1) (rho + 1) (by omega) hk2 hlow2
    simp only [HyperLogLog.get_rho_loop, h0, if_true, this]
    congr 1
    push_cast
    ring

theorem packed_loop_eq (k : Nat) : ∀ (fuel w rho : Nat), k < fuel → rho + k < 256 →
    w.testBit k = true → (∀ i < k, w.testBit i = false) →
    HyperLogLogOptimized.get_rho_loop fuel w rho = .ok (rho + k) := by
  induction k with
  | zero =>
    intro fuel w rho hf _ hk _
    obtain ⟨f, rfl⟩ : ∃ f, fuel = f + 1 := ⟨fuel - 1, by omega⟩
    have hne : ¬ (w &&& 1 = 0) := by
      rw [and_one_eq_zero_iff, hk]; simp
    simp only [HyperLogLogOptimized.get_rho_loop, if_neg hne]
    simp
  | succ k ih =>
    intro fuel w rho hf hr hk hlow
    obtain ⟨f, rfl⟩ : ∃ f, fuel = f + 1 := ⟨fuel - 1, by omega⟩
    have h0 : w &&& 1 = 0 := (and_one_eq_zero_iff w).2 (hlow 0 (Nat.succ_pos k))
    have hk2 : (w >>> 1).testBit k = true := by
      rw [Nat.testBit_shiftRight, Nat.add_comm]; exact hk
    have hlow2 : ∀ i < k, (w >>> 1).testBit i = false := by
      intro i hi
      rw [Nat.testBit_shiftRight, Nat.add_comm]
      exact hlow (i + 1) (Nat.succ_lt_succ hi)
    have hmod : (rho + 1) % 256 = rho + 1 := Nat.mod_eq_of_lt (by omega)
    have := ih f (w >>> 1) (rho + 1) (by omega) (by omega) hk2 hlow2
    simp only [HyperLogLogOptimized.get_rho_loop, h0, if_true, hmod, this]
    congr 1
    omega

/-- With the sentinel bit `sh` set above `w < 2^sh`, the lowest set bit is
that of `w`, or the sentinel itself when `w = 0`. -/
theorem sentinel_lowest {w sh : Nat} (hw : w < 2 ^ sh) :
    (w = 0 → (w ||| 1 <<< sh).testBit sh = true ∧ ∀ i < sh, (w ||| 1 <<< sh).testBit i = false) ∧
    (∀ k, w.testBit k = true → (∀ i < k, w.testBit i = false) →
      (w ||| 1 <<< sh).testBit k = true ∧ ∀ i < k, (w ||| 1 <<< sh).testBit i = false) := by
  constructor
  · intro h0
    subst h0
    constructor
    · simp [Nat.one_shiftLeft, Nat.testBit_two_pow_self]
    · intro i hi
      simp [Nat.one_shiftLeft, Nat.testBit_two_pow]
      omega
  · intro k hk hlow
    have hks : k < sh := lowest_bit_lt hw hk
    constructor
    · simp [Nat.testBit_or, hk]
    · intro i hi
      simp [Nat.testBit_or, hlow i hi, Nat.one_shiftLeft, Nat.testBit_two_pow]
      omega

theorem sentinel_ne_zero (w sh : Nat) : w ||| 1 <<< sh ≠ 0 := by
  intro h
  have : (w ||| 1 <<< sh).testBit sh = true := by
    simp [Nat.testBit_or, Nat.one_shiftLeft, Nat.testBit_two_pow_self]
  rw [h] at this
  simp at this

theorem normal_rho_sentinel (b : Int) {sh w : Nat} (hsh : sh < 32) (hw : w < 2 ^ sh) :
    ∃ k, k ≤ sh ∧ (w = 0 → k = sh) ∧
      (w ≠ 0 → w.testBit k = true ∧ ∀ i < k, w.testBit i = false) ∧
      HyperLogLog.get_rho b (w ||| 1 <<< sh) = .ok (1 + (k : Int)) := by
  have hs := sentinel_lowest hw
  have hne := sentinel_ne_zero w sh
  by_cases h0 : w = 0
  · obtain ⟨hk, hlow⟩ := hs.1 h0
    refine ⟨sh, le_refl _, fun _ => rfl, fun h => absurd h0 h, ?_⟩
    simp only [HyperLogLog.get_rho, HyperLogLog.get_rho_fuel, if_neg hne]
    exact normal_loop_eq sh 32 _ 1 hsh hk hlow
  · obtain ⟨k, hk, hlow⟩ := exists_lowest_bit h0
    obtain ⟨hk2, hlow2⟩ := hs.2 k hk hlow
    have hks : k < sh := lowest_bit_lt hw hk
    refine ⟨k, le_of_lt hks, fun h => absurd h h0, fun _ => ⟨hk, hlow⟩, ?_⟩
    simp only [HyperLogLog.get_rho, HyperLogLog.get_rho_fuel, if_neg hne]
    exact normal_loop_eq k 32 _ 1 (by omega) hk2 hlow2

theorem packed_rho_sentinel {sh w : Nat} (hsh : sh < 32) (hw : w < 2 ^ sh) :
    ∃ k, k ≤ sh ∧ (w = 0 → k = sh) ∧
      (w ≠ 0 → w.testBit k = true ∧ ∀ i < k, w.testBit i = false) ∧
      HyperLogLogOptimized.get_rho (w ||| 1 <<< sh) = .ok (1 + k) := by
  have hs := sentinel_lowest hw
  have hne := sentinel_ne_zero w sh
  by_cases h0 : w = 0
  · obtain ⟨hk, hlow⟩ := hs.1 h0
    refine ⟨sh, le_refl _, fun _ => rfl, fun h => absurd h0 h, ?_⟩
    simp only [HyperLogLogOptimized.get_rho, HyperLogLogOptimized.get_rho_fuel, if_neg hne]
    exact packed_loop_eq sh 32 _ 1 hsh (by omega) hk hlow
  · obtain ⟨k, hk, hlow⟩ := exists_lowest_bit h0
    obtain ⟨hk2, hlow2⟩ := hs.2 k hk hlow
    have hks : k < sh := lowest_bit_lt hw hk
    refine ⟨k, le_of_lt hks, fun h => absurd h h0, fun _ => ⟨hk, hlow⟩, ?_⟩
    simp only [HyperLogLogOptimized.get_rho, HyperLogLogOptimized.get_rho_fuel, if_neg hne]
    exact packed_loop_eq k 32 _ 1 (by omega) (by omega) hk2 hlow2

theorem shift_count_ok {b : Int} (h4 : 4 ≤ b) (h16 : b ≤ 16) :
    shift_count (32 - b) = .ok (32 - b).toNat := by
  unfold shift_count
  rw [if_pos]
  constructor <;> omega

theorem bucket_lt {b : Int} (h4 : 4 ≤ b) (h16 : b ≤ 16) (s : List Int) :
    HashFuncGen.hash s >>> (32 - b).toNat < 2 ^ b.toNat := by
  apply shiftRight_lt_of_lt
  have : (32 - b).toNat + b.toNat = 32 := by omega
  rw [this]
  exact hash_lt s

theorem normal_add_mk (b m : Int) (a : ℚ) (regs : List Int) (h4 : 4 ≤ b) (h16 : b ≤ 16)
    (hlen : regs.length = 2 ^ b.toNat) (s : List Int) :
    ∃ (rho : Int) (hj : HashFuncGen.hash s >>> (32 - b).toNat < regs.length),
      HyperLogLog.get_rho b
        ((HashFuncGen.hash s &&& ((1 <<< (32 - b).toNat) - 1)) ||| 1 <<< (32 - b).toNat)
        = .ok rho ∧
      1 ≤ rho ∧ rho ≤ 32 - b + 1 ∧
      HyperLogLog.add ⟨b, m, a, regs⟩ s = .ok ⟨b, m, a,
        regs.set (HashFuncGen.hash s >>> (32 - b).toNat)
          (max (regs.get ⟨HashFuncGen.hash s >>> (32 - b).toNat, hj⟩) rho)⟩ := by
  have hj : HashFuncGen.hash s >>> (32 - b).toNat < regs.length := by
    rw [hlen]; exact bucket_lt h4 h16 s
  have hsh : (32 - b).toNat < 32 := by omega
  obtain ⟨k, hk, _, _, hrho⟩ :=
    normal_rho_sentinel b hsh (and_mask_lt (HashFuncGen.hash s) (32 - b).toNat)
  refine ⟨1 + (k : Int), hj, hrho, by omega, by omega, ?_⟩
  simp only [HyperLogLog.add, shift_count_ok h4 h16, hrho, HyperLogLog.store_max, dif_pos hj,
    bind, Except.bind, pure, Except.pure]

/-- What `add` does on a well-formed state, in one equation. -/
theorem normal_add_spec (h : HyperLogLog) (hwf : h.WF) (s : List Int) :
    ∃ (rho : Int) (hj : HashFuncGen.hash s >>> (32 - h.b).toNat < h.registers.length),
      HyperLogLog.get_rho h.b
        ((HashFuncGen.hash s &&& ((1 <<< (32 - h.b).toNat) - 1)) ||| 1 <<< (32 - h.b).toNat)
        = .ok rho ∧
      1 ≤ rho ∧ rho ≤ 32 - h.b + 1 ∧
      h.add s = .ok { h with registers :=
        (h.registers.set (HashFuncGen.hash s >>> (32 - h.b).toNat)
          (max (h.registers.get ⟨HashFuncGen.hash s >>> (32 - h.b).toNat, hj⟩) rho)) } := by
  obtain ⟨b, m, a, regs⟩ := h
  obtain ⟨h4, h16, _, hlen⟩ := hwf
  exact normal_add_mk b m a regs h4 h16 hlen s

theorem set_if_greater_eq (r : Bitset) {j : Nat} (hj : j < M_REGS) (rho : Nat) :
    HyperLogLogOptimized.set_if_greater r j rho =
      .ok (if rho > slot r j then setSlot r j rho else r) := by
  simp only [HyperLogLogOptimized.set_if_greater, get_val_eq r hj, bind, Except.bind]
  split
  · exact set_val_eq r hj rho
  · rfl

theorem slot_set_if_greater_same (r : Bitset) {j : Nat} (hj : j < M_REGS) {rho : Nat}
    (hr : rho < 32) :
    slot (if rho > slot r j then setSlot r j rho else r) j = max (slot r j) rho := by
  split
  · rename_i h
    rw [slot_setSlot_same r hj hr]
    omega
  · rename_i h
    omega

theorem slot_set_if_greater_other (r : Bitset) (j rho : Nat) {i : Nat} (hne : i ≠ j) :
    slot (if rho > slot r j then setSlot r j rho else r) i = slot r i := by
  split
  · exact slot_setSlot_other r j rho hne
  · rfl

theorem packed_bucket_lt (s : List Int) : HashFuncGen.hash s >>> (32 - B_BITS) < M_REGS := by
  have : M_REGS = 2 ^ 10 := by decide
  rw [this]
  apply shiftRight_lt_of_lt
  exact hash_lt s

/-- What the bit-packed `add` does, in one equation. -/
theorem packed_add_spec (h : HyperLogLogOptimized) (s : List Int) :
    ∃ rho : Nat,
      HyperLogLogOptimized.get_rho
        ((HashFuncGen.hash s &&& ((1 <<< (32 - B_BITS)) - 1)) ||| 1 <<< (32 - B_BITS)) = .ok rho ∧
      1 ≤ rho ∧ rho ≤ 23 ∧
      h.add s = .ok { h with registers :=
        (if rho > slot h.registers (HashFuncGen.hash s >>> (32 - B_BITS))
        then setSlot h.registers (HashFuncGen.hash s >>> (32 - B_BITS)) rho
        else h.registers) } := by
  have hB : 32 - B_BITS = 22 := by decide
  obtain ⟨k, hk, _, _, hrho⟩ :=
    packed_rho_sentinel (show 32 - B_BITS < 32 by decide)
      (and_mask_lt (HashFuncGen.hash s) (32 - B_BITS))
  rw [hB] at hk
  refine ⟨1 + k, hrho, by omega, by omega, ?_⟩
  have hclamp : ¬ (1 + k > 31) := by omega
  simp only [HyperLogLogOptimized.add, hrho, set_if_greater_eq _ (packed_bucket_lt s),
    if_neg hclamp, bind, Except.bind, pure, Except.pure]

theorem rho_agree (b : Int) {sh w : Nat} (hsh : sh < 32) (hw : w < 2 ^ sh) :
    ∃ k, k ≤ sh ∧ HyperLogLog.get_rho b (w ||| 1 <<< sh) = .ok (1 + (k : Int)) ∧
      HyperLogLogOptimized.get_rho (w ||| 1 <<< sh) = .ok (1 + k) := by
  have hs := sentinel_lowest hw
  have hne := sentinel_ne_zero w sh
  by_cases h0 : w = 0
  · obtain ⟨hk, hlow⟩ := hs.1 h0
    refine ⟨sh, le_refl _, ?_, ?_⟩
    · simp only [HyperLogLog.get_rho, HyperLogLog.get_rho_fuel, if_neg hne]
      exact normal_loop_eq sh 32 _ 1 hsh hk hlow
    · simp only [HyperLogLogOptimized.get_rho, HyperLogLogOptimized.get_rho_fuel, if_neg hne]
      exact packed_loop_eq sh 32 _ 1 hsh (by omega) hk hlow
  · obtain ⟨k, hk, hlow⟩ := exists_lowest_bit h0
    obtain ⟨hk2, hlow2⟩ := hs.2 k hk hlow
    have hks : k < sh := lowest_bit_lt hw hk
    refine ⟨k, le_of_lt hks, ?_, ?_⟩
    · simp only [HyperLogLog.get_rho, HyperLogLog.get_rho_fuel, if_neg hne]
      exact normal_loop_eq k 32 _ 1 (by omega) hk2 hlow2
    · simp only [HyperLogLogOptimized.get_rho, HyperLogLogOptimized.get_rho_fuel, if_neg hne]
      exact packed_loop_eq k 32 _ 1 (by omega) (by omega) hk2 hlow2

theorem slot_zero (i : Nat) : slot (fun _ => false) i = 0 := by
  simp [slot, bitAt, bitsVal]

theorem sameStore_fresh : SameStore (List.replicate M_REGS 0) (fun _ => false) := by
  refine ⟨List.length_replicate _ _, ?_⟩
  intro i hi
  rw [slot_zero]
  simp [List.getElem?_replicate, hi]

theorem store_max_eq (regs : List Int) {j : Nat} (hj : j < regs.length) (v : Int) :
    HyperLogLog.store_max regs j v = .ok (regs.set j (max (regs.get ⟨j, hj⟩) v)) := by
  simp only [HyperLogLog.store_max, dif_pos hj]

theorem sameStore_step {regs : List Int} {r : Bitset} (hrel : SameStore regs r) {j v : Nat}
    (hj : j < M_REGS) (hv : v ≤ 31) :
    ∃ regs2 r2, HyperLogLog.store_max regs j (v : Int) = .ok regs2 ∧
      HyperLogLogOptimized.set_if_greater r j v = .ok r2 ∧ SameStore regs2 r2 := by
  obtain ⟨hlen, hval⟩ := hrel
  have hjl : j < regs.length := by rw [hlen]; exact hj
  refine ⟨_, _, store_max_eq regs hjl _, set_if_greater_eq r hj v, ?_, ?_⟩
  · simp [hlen]
  · intro i hi
    by_cases hij : i = j
    · subst hij
      rw [slot_set_if_greater_same r hj (by omega)]
      have hold : regs.get ⟨i, hjl⟩ = ((slot r i : Nat) : Int) := by
        have := hval i hi
        rw [List.getElem?_eq_getElem hjl] at this
        simpa using this
      rw [hold]
      simp [List.getElem?_set, hjl]
    · rw [slot_set_if_greater_other r j v hij]
      rw [List.getElem?_set_ne (fun h => hij h.symm)]
      exact hval i hi

theorem sameStore_run (ops : List (Nat × Nat)) :
    ∀ (regs : List Int) (r : Bitset), SameStore regs r →
      (∀ op ∈ ops, op.1 < M_REGS ∧ op.2 ≤ 31) →
      ∃ regs2 r2, byte_updates regs ops = .ok regs2 ∧ packed_updates r ops = .ok r2 ∧
        SameStore regs2 r2 := by
  induction ops with
  | nil =>
    intro regs r hrel _
    exact ⟨regs, r, rfl, rfl, hrel⟩
  | cons op ops ih =>
    intro regs r hrel hops
    obtain ⟨hj, hv⟩ := hops op (List.mem_cons_self _ _)
    obtain ⟨regs1, r1, e1, e2, hrel1⟩ := sameStore_step hrel hj hv
    obtain ⟨regs2, r2, f1, f2, hrel2⟩ :=
      ih regs1 r1 hrel1 (fun o ho => hops o (List.mem_cons_of_mem _ ho))
    refine ⟨regs2, r2, ?_, ?_, hrel2⟩
    · simp only [byte_updates, List.foldlM_cons, e1, bind, Except.bind]
      exact f1
    · simp only [packed_updates, List.foldlM_cons, e2, bind, Except.bind]
      exact f2

/-- C1. Register-store equivalence: for every sequence of (index, value)
updates with index below 1024 and value at most 31, applied as guarded stores
to the byte-per-register store and to the bit-packed store, both starting from
all zeros, both runs complete and `get_val` of the bit-packed store returns,
at every index below 1024, the content of the same cell of the other store. -/
theorem register_store_equivalence (ops : List (Nat × Nat))
    (hops : ∀ op ∈ ops, op.1 < 1024 ∧ op.2 ≤ 31) :
    ∃ regs r, byte_updates (List.replicate 1024 0) ops = .ok regs ∧
      packed_updates (fun _ => false) ops = .ok r ∧
      ∀ i, i < 1024 → ∃ v, HyperLogLogOptimized.get_val r i = .ok v ∧
        regs[i]? = some (v : Int) := by
  obtain ⟨regs, r, e1, e2, hrel⟩ := sameStore_run ops _ _ sameStore_fresh hops
  refine ⟨regs, r, e1, e2, ?_⟩
  intro i hi
  exact ⟨slot r i, get_val_eq r hi, hrel.2 i hi⟩

theorem register_store_equivalence_witness :
    ∃ regs r, byte_updates (List.replicate 1024 0) [(3, 7), (1023, 31), (3, 5)] = .ok regs ∧
      packed_updates (fun _ => false) [(3, 7), (1023, 31), (3, 5)] = .ok r ∧
      ∀ i, i < 1024 → ∃ v, HyperLogLogOptimized.get_val r i = .ok v ∧
        regs[i]? = some (v : Int) :=
  register_store_equivalence [(3, 7), (1023, 31), (3, 5)] (by decide)

theorem foldlM_range_slots {α : Type} (G : α → Nat → α) (F : α → Int → α)
    (hGF : ∀ acc v, G acc v = F acc (v : Int)) {regs : List Int} {r : Bitset}
    (hrel : SameStore regs r) (init : α) :
    ∀ n, n ≤ M_REGS →
      (List.range n).foldlM
        (fun acc j => (HyperLogLogOptimized.get_val r j).bind (fun v => Except.ok (G acc v))) init
        = Except.ok ((regs.take n).foldl F init) := by
  intro n
  induction n with
  | zero => intro _; rfl
  | succ n ih =>
    intro hn
    have hlt : n < M_REGS := hn
    have hl : n < regs.length := by rw [hrel.1]; exact hlt
    have hget : regs[n]? = some ((slot r n : Nat) : Int) := hrel.2 n hlt
    rw [List.range_succ, List.foldlM_append, ih (Nat.le_of_lt hlt)]
    rw [List.take_succ, hget]
    simp only [List.foldlM_cons, List.foldlM_nil, get_val_eq r hlt, bind, Except.bind, pure,
      Except.pure, Option.toList, List.foldl_append, List.foldl_cons, List.foldl_nil, hGF]

theorem sameStore_sum_inv {regs : List Int} {r : Bitset} (hrel : SameStore regs r) :
    HyperLogLogOptimized.sum_inv r = .ok (HyperLogLog.sum_inv regs) := by
  have h := foldlM_range_slots (fun (acc : ℚ) (v : Nat) => acc + (2 : ℚ) ^ (-(v : Int)))
    (fun (acc : ℚ) (val : Int) => acc + (2 : ℚ) ^ (-val)) (fun _ _ => rfl) hrel 0 M_REGS
    (le_refl _)
  have htake : regs.take M_REGS = regs := by
    have := @List.take_length _ regs
    rw [hrel.1] at this
    exact this
  rw [htake] at h
  exact h

theorem sameStore_count_zero {regs : List Int} {r : Bitset} (hrel : SameStore regs r) :
    HyperLogLogOptimized.count_zero r = .ok (HyperLogLog.count_zero regs) := by
  have h := foldlM_range_slots (fun (V : Int) (v : Nat) => if v = 0 then V + 1 else V)
    (fun (V : Int) (val : Int) => if val = 0 then V + 1 else V)
    (fun _ v => by simp) hrel 0 M_REGS (le_refl _)
  have htake : regs.take M_REGS = regs := by
    have := @List.take_length _ regs
    rw [hrel.1] at this
    exact this
  rw [htake] at h
  exact h

theorem sameState_estimate {R : Type} [Field R] (ln : R → R) {hn : HyperLogLog}
    {ho : HyperLogLogOptimized} (h : SameState hn ho) :
    ho.estimate ln = .ok (hn.estimate ln) := by
  obtain ⟨_, hm, ha, hrel⟩ := h
  have hM0 : M_REGS = 1024 := by decide
  have hM : ((M_REGS : Nat) : ℚ) = ((hn.m : Int) : ℚ) := by
    rw [hm, hM0]; norm_num
  have hMR : ((M_REGS : Nat) : R) = ((hn.m : Int) : R) := by
    rw [hm, hM0]; norm_num
  unfold HyperLogLogOptimized.estimate HyperLogLog.estimate
  rw [sameStore_sum_inv hrel, sameStore_count_zero hrel, hM, hMR, ← ha]
  show (if hn.alphaMM / HyperLogLog.sum_inv hn.registers ≤ 2.5 * ((hn.m : Int) : ℚ) then
      (if HyperLogLog.count_zero hn.registers > 0 then
        Except.ok ((hn.m : R) * ln ((hn.m : R) / (HyperLogLog.count_zero hn.registers : R)))
      else Except.ok ((hn.alphaMM / HyperLogLog.sum_inv hn.registers : ℚ) : R))
    else Except.ok ((hn.alphaMM / HyperLogLog.sum_inv hn.registers : ℚ) : R)) =
    Except.ok (if hn.alphaMM / HyperLogLog.sum_inv hn.registers ≤ 2.5 * ((hn.m : Int) : ℚ) then
      (if HyperLogLog.count_zero hn.registers > 0 then
        (hn.m : R) * ln ((hn.m : R) / (HyperLogLog.count_zero hn.registers : R))
      else ((hn.alphaMM / HyperLogLog.sum_inv hn.registers : ℚ) : R))
    else ((hn.alphaMM / HyperLogLog.sum_inv hn.registers : ℚ) : R))
  by_cases h1 : hn.alphaMM / HyperLogLog.sum_inv hn.registers ≤ 2.5 * ((hn.m : Int) : ℚ)
  · by_cases h2 : HyperLogLog.count_zero hn.registers > 0
    · rw [if_pos h1, if_pos h2, if_pos h1, if_pos h2]
    · rw [if_pos h1, if_neg h2, if_pos h1, if_neg h2]
  · rw [if_neg h1, if_neg h1]

theorem sameState_add {hn : HyperLogLog} {ho : HyperLogLogOptimized} (h : SameState hn ho)
    (s : List Int) :
    ∃ hn2 ho2, hn.add s = .ok hn2 ∧ ho.add s = .ok ho2 ∧ SameState hn2 ho2 := by
  obtain ⟨hb, hm, ha, hrel⟩ := h
  have hsh : (32 - hn.b).toNat = 22 := by rw [hb]; rfl
  have hB : 32 - B_BITS = 22 := by decide
  obtain ⟨k, hk, hr1, hr2⟩ := rho_agree hn.b (show 22 < 32 by decide)
    (and_mask_lt (HashFuncGen.hash s) 22)
  have hj : HashFuncGen.hash s >>> 22 < M_REGS := by
    have := packed_bucket_lt s
    rwa [hB] at this
  obtain ⟨regs2, r2, e1, e2, hrel2⟩ := sameStore_step hrel hj (show 1 + k ≤ 31 by omega)
  have hcast : ((1 + k : Nat) : Int) = 1 + (k : Int) := by push_cast; ring
  rw [hcast] at e1
  have hclamp : ¬ (1 + k > 31) := by omega
  refine ⟨{ hn with registers := regs2 }, { ho with registers := r2 }, ?_, ?_,
    ⟨hb, hm, ha, hrel2⟩⟩
  · simp only [HyperLogLog.add, shift_count_ok (by omega : (4 : Int) ≤ hn.b) (by omega), hsh,
      hr1, e1, bind, Except.bind, pure, Except.pure]
  · simp only [HyperLogLogOptimized.add, hB, hr2, if_neg hclamp, e2, bind, Except.bind, pure,
      Except.pure]

theorem sameState_addAll (ss : List (List Int)) :
    ∀ (hn : HyperLogLog) (ho : HyperLogLogOptimized), SameState hn ho →
      ∃ hn2 ho2, hn.addAll ss = .ok hn2 ∧ ho.addAll ss = .ok ho2 ∧ SameState hn2 ho2 := by
  induction ss with
  | nil =>
    intro hn ho h
    exact ⟨hn, ho, rfl, rfl, h⟩
  | cons s ss ih =>
    intro hn ho h
    obtain ⟨hn1, ho1, e1, e2, h1⟩ := sameState_add h s
    obtain ⟨hn2, ho2, f1, f2, h2⟩ := ih hn1 ho1 h1
    refine ⟨hn2, ho2, ?_, ?_, h2⟩
    · simp only [HyperLogLog.addAll, List.foldlM_cons, e1, bind, Except.bind]
      exact f1
    · simp only [HyperLogLogOptimized.addAll, List.foldlM_cons, e2, bind, Except.bind]
      exact f2

theorem new_ten : HyperLogLog.new 10 = .ok
    { b := 10, m := 1024, alphaMM := HyperLogLog.get_alpha 1024 * 1024 * 1024,
      registers := List.replicate 1024 0 } := by
  rfl

theorem sameState_fresh :
    SameState
      { b := 10, m := 1024, alphaMM := HyperLogLog.get_alpha 1024 * 1024 * 1024,
        registers := List.replicate 1024 0 }
      HyperLogLogOptimized.new := by
  have hM0 : M_REGS = 1024 := by decide
  refine ⟨rfl, rfl, ?_, sameStore_fresh⟩
  simp only [HyperLogLogOptimized.new, hM0]
  rfl

/-- C2. Estimator equivalence: for every finite sequence of strings, adding
them in order to a fresh `HyperLogLog(10)` and to a fresh
`HyperLogLogOptimized` completes in both, `registers[j]` of the first equals
`get_val(j)` of the second for every `j` below 1024, and `estimate()` of the
two is the same value (for every reading of `std::log`). -/
theorem estimator_equivalence (ss : List (List Int)) :
    ∃ hn ho, (HyperLogLog.new 10).bind (fun h => h.addAll ss) = .ok hn ∧
      HyperLogLogOptimized.new.addAll ss = .ok ho ∧
      (∀ j, j < 1024 → ∃ v, HyperLogLogOptimized.get_val ho.registers j = .ok v ∧
        hn.registers[j]? = some (v : Int)) ∧
      ∀ (R : Type) [Field R] (ln : R → R), ho.estimate ln = .ok (hn.estimate ln) := by
  obtain ⟨hn, ho, e1, e2, h⟩ := sameState_addAll ss _ _ sameState_fresh
  refine ⟨hn, ho, ?_, e2, ?_, ?_⟩
  · rw [new_ten]; exact e1
  · intro j hj
    exact ⟨slot ho.registers j, get_val_eq _ hj, h.2.2.2.2 j hj⟩
  · intro R _ ln
    exact sameState_estimate ln h

theorem regsLe_refl (a : List Int) : RegsLe a a :=
  ⟨rfl, fun _ v h => ⟨v, h, le_refl v⟩⟩

theorem regsLe_trans {a b c : List Int} (h1 : RegsLe a b) (h2 : RegsLe b c) : RegsLe a c := by
  refine ⟨h1.1.trans h2.1, ?_⟩
  intro i v hv
  obtain ⟨v2, hv2, hle⟩ := h1.2 i v hv
  obtain ⟨v3, hv3, hle2⟩ := h2.2 i v2 hv2
  exact ⟨v3, hv3, le_trans hle hle2⟩

theorem regsLe_set_max (a : List Int) {j : Nat} (hj : j < a.length) (rho : Int) :
    RegsLe a (a.set j (max (a.get ⟨j, hj⟩) rho)) := by
  refine ⟨by simp, ?_⟩
  intro i v hv
  by_cases hij : j = i
  · subst hij
    rw [List.getElem?_eq_getElem hj] at hv
    have hv2 : a.get ⟨j, hj⟩ = v := by simpa using hv
    refine ⟨max (a.get ⟨j, hj⟩) rho, by simp [List.getElem?_set, hj], ?_⟩
    rw [← hv2]
    exact le_max_left _ _
  · exact ⟨v, by rw [List.getElem?_set_ne hij]; exact hv, le_refl v⟩

theorem slotsLe_refl (r : Bitset) : SlotsLe r r :=
  fun i hi => ⟨slot r i, slot r i, get_val_eq r hi, get_val_eq r hi, Nat.le_refl (slot r i)⟩

theorem slotsLe_trans {a b c : Bitset} (h1 : SlotsLe a b) (h2 : SlotsLe b c) : SlotsLe a c := by
  intro i hi
  obtain ⟨v, v2, e1, e2, hle⟩ := h1 i hi
  obtain ⟨w2, w3, f1, f2, hle2⟩ := h2 i hi
  have : v2 = w2 := by
    rw [e2] at f1
    exact Except.ok.inj f1
  subst this
  exact ⟨v, w3, e1, f2, le_trans hle hle2⟩

theorem slotsLe_set_if_greater (r : Bitset) {j : Nat} (hj : j < M_REGS) {rho : Nat}
    (hr : rho < 32) : SlotsLe r (if rho > slot r j then setSlot r j rho else r) := by
  intro i hi
  refine ⟨slot r i, _, get_val_eq r hi, get_val_eq _ hi, ?_⟩
  by_cases hij : i = j
  · subst hij
    rw [slot_set_if_greater_same r hj hr]
    exact le_max_left _ _
  · rw [slot_set_if_greater_other r j rho hij]

theorem normal_add_wf (h : HyperLogLog) (hwf : h.WF) (s : List Int) :
    ∃ h2, h.add s = .ok h2 ∧ h2.WF ∧ h2.b = h.b ∧ h2.m = h.m ∧ h2.alphaMM = h.alphaMM ∧
      RegsLe h.registers h2.registers := by
  obtain ⟨rho, hj, _, _, _, hadd⟩ := normal_add_spec h hwf s
  refine ⟨_, hadd, ?_, rfl, rfl, rfl, regsLe_set_max _ hj rho⟩
  obtain ⟨h4, h16, hm, hlen⟩ := hwf
  exact ⟨h4, h16, hm, by simp [hlen]⟩

theorem normal_addAll_wf (ss : List (List Int)) :
    ∀ h : HyperLogLog, h.WF →
      ∃ h2, h.addAll ss = .ok h2 ∧ h2.WF ∧ RegsLe h.registers h2.registers := by
  induction ss with
  | nil =>
    intro h hwf
    exact ⟨h, rfl, hwf, regsLe_refl _⟩
  | cons s ss ih =>
    intro h hwf
    obtain ⟨h1, e1, hwf1, _, _, _, hle1⟩ := normal_add_wf h hwf s
    obtain ⟨h2, e2, hwf2, hle2⟩ := ih h1 hwf1
    refine ⟨h2, ?_, hwf2, regsLe_trans hle1 hle2⟩
    simp only [HyperLogLog.addAll, List.foldlM_cons, e1, bind, Except.bind]
    exact e2

theorem packed_add_le (ho : HyperLogLogOptimized) (s : List Int) :
    ∃ o2, ho.add s = .ok o2 ∧ o2.alphaMM = ho.alphaMM ∧ SlotsLe ho.registers o2.registers := by
  obtain ⟨rho, _, _, hr, hadd⟩ := packed_add_spec ho s
  have hB : 32 - B_BITS = 22 := by decide
  have hj := packed_bucket_lt s
  exact ⟨_, hadd, rfl, slotsLe_set_if_greater _ hj (by omega)⟩

theorem packed_addAll_le (ss : List (List Int)) :
    ∀ ho : HyperLogLogOptimized,
      ∃ o2, ho.addAll ss = .ok o2 ∧ SlotsLe ho.registers o2.registers := by
  induction ss with
  | nil =>
    intro ho
    exact ⟨ho, rfl, slotsLe_refl _⟩
  | cons s ss ih =>
    intro ho
    obtain ⟨o1, e1, _, hle1⟩ := packed_add_le ho s
    obtain ⟨o2, e2, hle2⟩ := ih o1
    refine ⟨o2, ?_, slotsLe_trans hle1 hle2⟩
    simp only [HyperLogLogOptimized.addAll, List.foldlM_cons, e1, bind, Except.bind]
    exact e2

/-- C3. Monotonicity: from every well-formed state of the byte-per-register
estimator (any precision from 4 to 16) and from every state of the bit-packed
estimator, one `add` completes and leaves every register at least as large as
before, and so does every sequence of `add` calls. -/
theorem monotonicity (h : HyperLogLog) (hwf : h.WF) (ho : HyperLogLogOptimized)
    (s : List Int) (ss : List (List Int)) :
    (∃ h1, h.add s = .ok h1 ∧ h1.WF ∧ RegsLe h.registers h1.registers) ∧
    (∃ h2, h.addAll ss = .ok h2 ∧ h2.WF ∧ RegsLe h.registers h2.registers) ∧
    (∃ o1, ho.add s = .ok o1 ∧ SlotsLe ho.registers o1.registers) ∧
    (∃ o2, ho.addAll ss = .ok o2 ∧ SlotsLe ho.registers o2.registers) := by
  refine ⟨?_, normal_addAll_wf ss h hwf, ?_, packed_addAll_le ss ho⟩
  · obtain ⟨h1, e1, hwf1, _, _, _, hle⟩ := normal_add_wf h hwf s
    exact ⟨h1, e1, hwf1, hle⟩
  · obtain ⟨o1, e1, _, hle⟩ := packed_add_le ho s
    exact ⟨o1, e1, hle⟩

theorem sample16_wf : sample16.WF := by
  refine ⟨by decide, by decide, by decide, by decide⟩

theorem monotonicity_witness :
    (∃ h1, sample16.add [97, 98] = .ok h1 ∧ h1.WF ∧ RegsLe sample16.registers h1.registers) ∧
    (∃ h2, sample16.addAll [[97], [98]] = .ok h2 ∧ h2.WF ∧
      RegsLe sample16.registers h2.registers) ∧
    (∃ o1, HyperLogLogOptimized.new.add [97, 98] = .ok o1 ∧
      SlotsLe HyperLogLogOptimized.new.registers o1.registers) ∧
    (∃ o2, HyperLogLogOptimized.new.addAll [[97], [98]] = .ok o2 ∧
      SlotsLe HyperLogLogOptimized.new.registers o2.registers) :=
  monotonicity sample16 sample16_wf HyperLogLogOptimized.new [97, 98] [[97], [98]]

theorem set_max_idem (regs : List Int) {j : Nat} (hj : j < regs.length) (rho : Int)
    (hj2 : j < (regs.set j (max (regs.get ⟨j, hj⟩) rho)).length) :
    (regs.set j (max (regs.get ⟨j, hj⟩) rho)).set j
      (max ((regs.set j (max (regs.get ⟨j, hj⟩) rho)).get ⟨j, hj2⟩) rho)
      = regs.set j (max (regs.get ⟨j, hj⟩) rho) := by
  apply List.ext_getElem?
  intro i
  by_cases hij : j = i
  · subst hij
    simp [List.getElem?_set, hj]
  · simp [List.getElem?_set_ne hij]

theorem normal_add_fixed (h : HyperLogLog) (hwf : h.WF) (s : List Int) :
    ∃ h1, h.add s = .ok h1 ∧ h1.WF ∧ h1.add s = .ok h1 := by
  obtain ⟨b, m, a, regs⟩ := h
  obtain ⟨h4, h16, hm, hlen⟩ := hwf
  obtain ⟨rho, hj, hrho, _, _, hadd⟩ := normal_add_mk b m a regs h4 h16 hlen s
  have hlen1 : (regs.set (HashFuncGen.hash s >>> (32 - b).toNat)
      (max (regs.get ⟨HashFuncGen.hash s >>> (32 - b).toNat, hj⟩) rho)).length = 2 ^ b.toNat := by
    rw [List.length_set]; exact hlen
  obtain ⟨rho2, hj2, hrho2, _, _, hadd2⟩ := normal_add_mk b m a _ h4 h16 hlen1 s
  have hr : rho2 = rho := by
    rw [hrho] at hrho2
    exact (Except.ok.inj hrho2).symm
  subst hr
  refine ⟨_, hadd, ⟨h4, h16, hm, hlen1⟩, ?_⟩
  rw [hadd2, set_max_idem regs hj rho2 hj2]

theorem normal_addAll_replicate (h1 : HyperLogLog) (s : List Int) (hfix : h1.add s = .ok h1) :
    ∀ k, h1.addAll (List.replicate k s) = .ok h1 := by
  intro k
  induction k with
  | zero => rfl
  | succ k ih =>
    simp only [HyperLogLog.addAll, List.replicate_succ, List.foldlM_cons, hfix, bind, Except.bind]
    exact ih

theorem packed_add_fixed (ho : HyperLogLogOptimized) (s : List Int) :
    ∃ o1, ho.add s = .ok o1 ∧ o1.add s = .ok o1 := by
  obtain ⟨rho, hrho, _, h23, hadd⟩ := packed_add_spec ho s
  refine ⟨_, hadd, ?_⟩
  obtain ⟨rho2, hrho2, _, _, hadd2⟩ := packed_add_spec
    { ho with registers :=
        (if rho > slot ho.registers (HashFuncGen.hash s >>> (32 - B_BITS))
        then setSlot ho.registers (HashFuncGen.hash s >>> (32 - B_BITS)) rho
        else ho.registers) } s
  have hr : rho2 = rho := by
    rw [hrho] at hrho2
    exact (Except.ok.inj hrho2).symm
  subst hr
  rw [hadd2]
  have hnot : ¬ (rho2 > slot (if rho2 > slot ho.registers (HashFuncGen.hash s >>> (32 - B_BITS))
        then setSlot ho.registers (HashFuncGen.hash s >>> (32 - B_BITS)) rho2
        else ho.registers) (HashFuncGen.hash s >>> (32 - B_BITS))) := by
    rw [slot_set_if_greater_same _ (packed_bucket_lt s) (by omega)]
    omega
  simp only [if_neg hnot]

theorem packed_addAll_replicate (o1 : HyperLogLogOptimized) (s : List Int)
    (hfix : o1.add s = .ok o1) : ∀ k, o1.addAll (List.replicate k s) = .ok o1 := by
  intro k
  induction k with
  | zero => rfl
  | succ k ih =>
    simp only [HyperLogLogOptimized.addAll, List.replicate_succ, List.foldlM_cons, hfix, bind,
      Except.bind]
    exact ih

/-- C4. Duplicate insensitivity: from every well-formed byte-per-register
state and every bit-packed state, for every string `s` and every `k ≥ 1`,
`k` calls of `add(s)` complete in exactly the state one call leaves, and
`estimate()` of the two states is the same value. -/
theorem duplicate_insensitivity (h : HyperLogLog) (hwf : h.WF) (ho : HyperLogLogOptimized)
    (s : List Int) (k : Nat) (hk : 1 ≤ k) :
    (∃ h1 hk1, h.add s = .ok h1 ∧ h.addAll (List.replicate k s) = .ok hk1 ∧ hk1 = h1 ∧
      ∀ (R : Type) [Field R] (ln : R → R), hk1.estimate ln = h1.estimate ln) ∧
    (∃ o1 ok1, ho.add s = .ok o1 ∧ ho.addAll (List.replicate k s) = .ok ok1 ∧ ok1 = o1 ∧
      ∀ (R : Type) [Field R] (ln : R → R), ok1.estimate ln = o1.estimate ln) := by
  obtain ⟨k, rfl⟩ : ∃ n, k = n + 1 := ⟨k - 1, by omega⟩
  constructor
  · obtain ⟨h1, e1, _, hfix⟩ := normal_add_fixed h hwf s
    refine ⟨h1, h1, e1, ?_, rfl, fun _ _ _ => rfl⟩
    simp only [HyperLogLog.addAll, List.replicate_succ, List.foldlM_cons, e1, bind, Except.bind]
    exact normal_addAll_replicate h1 s hfix k
  · obtain ⟨o1, e1, hfix⟩ := packed_add_fixed ho s
    refine ⟨o1, o1, e1, ?_, rfl, fun _ _ _ => rfl⟩
    simp only [HyperLogLogOptimized.addAll, List.replicate_succ, List.foldlM_cons, e1, bind,
      Except.bind]
    exact packed_addAll_replicate o1 s hfix k

theorem duplicate_insensitivity_witness :
    (∃ h1 hk1, sample16.add [97, 98] = .ok h1 ∧
      sample16.addAll (List.replicate 3 [97, 98]) = .ok hk1 ∧ hk1 = h1 ∧
      ∀ (R : Type) [Field R] (ln : R → R), hk1.estimate ln = h1.estimate ln) ∧
    (∃ o1 ok1, HyperLogLogOptimized.new.add [97, 98] = .ok o1 ∧
      HyperLogLogOptimized.new.addAll (List.replicate 3 [97, 98]) = .ok ok1 ∧ ok1 = o1 ∧
      ∀ (R : Type) [Field R] (ln : R → R), ok1.estimate ln = o1.estimate ln) :=
  duplicate_insensitivity sample16 sample16_wf HyperLogLogOptimized.new [97, 98] 3 (by decide)

/-- C9. `add` touches exactly one slot and applies the max rule.  With
`x = hash(s)`, `j = x >> (32 - b)` and `rho` the rank that `get_rho` returns
for the low `32 - b` bits of `x` under the sentinel, `add` completes, register
`j` becomes `max(old, rho)` and every other register keeps its value; the other
fields of the state are untouched.  In the bit-packed variant no bit outside
the five positions of slot `j` changes. -/
theorem add_frame (h : HyperLogLog) (hwf : h.WF) (ho : HyperLogLogOptimized) (s : List Int) :
    (∃ (rho old : Int) (h1 : HyperLogLog),
      HyperLogLog.get_rho h.b
        ((HashFuncGen.hash s &&& ((1 <<< (32 - h.b).toNat) - 1)) ||| 1 <<< (32 - h.b).toNat)
        = .ok rho ∧
      h.add s = .ok h1 ∧
      h.registers[HashFuncGen.hash s >>> (32 - h.b).toNat]? = some old ∧
      h1.registers[HashFuncGen.hash s >>> (32 - h.b).toNat]? = some (max old rho) ∧
      (∀ k : Nat, k ≠ HashFuncGen.hash s >>> (32 - h.b).toNat →
        h1.registers[k]? = h.registers[k]?) ∧
      h1.registers.length = h.registers.length ∧
      h1.b = h.b ∧ h1.m = h.m ∧ h1.alphaMM = h.alphaMM) ∧
    (∃ (rho old : Nat) (o1 : HyperLogLogOptimized),
      HyperLogLogOptimized.get_rho
        ((HashFuncGen.hash s &&& ((1 <<< (32 - B_BITS)) - 1)) ||| 1 <<< (32 - B_BITS)) = .ok rho ∧
      ho.add s = .ok o1 ∧
      HyperLogLogOptimized.get_val ho.registers (HashFuncGen.hash s >>> (32 - B_BITS)) = .ok old ∧
      HyperLogLogOptimized.get_val o1.registers (HashFuncGen.hash s >>> (32 - B_BITS))
        = .ok (max old rho) ∧
      (∀ k : Nat, k < M_REGS → k ≠ HashFuncGen.hash s >>> (32 - B_BITS) →
        HyperLogLogOptimized.get_val o1.registers k
          = HyperLogLogOptimized.get_val ho.registers k) ∧
      (∀ p : Fin TOTAL_BITS,
        ¬ ((HashFuncGen.hash s >>> (32 - B_BITS)) * BITS_PER_REG ≤ p.val ∧
           p.val < (HashFuncGen.hash s >>> (32 - B_BITS)) * BITS_PER_REG + BITS_PER_REG) →
        o1.registers p = ho.registers p) ∧
      o1.alphaMM = ho.alphaMM) := by
  constructor
  · obtain ⟨rho, hj, hrho, _, _, hadd⟩ := normal_add_spec h hwf s
    refine ⟨rho, h.registers.get ⟨_, hj⟩, _, hrho, hadd, ?_, ?_, ?_, ?_, rfl, rfl, rfl⟩
    · rw [List.getElem?_eq_getElem hj]; rfl
    · simp [List.getElem?_set, hj]
    · intro k hk
      exact List.getElem?_set_ne (fun e => hk e.symm)
    · simp
  · obtain ⟨rho, hrho, _, h23, hadd⟩ := packed_add_spec ho s
    have hj := packed_bucket_lt s
    refine ⟨rho, slot ho.registers (HashFuncGen.hash s >>> (32 - B_BITS)), _, hrho, hadd,
      get_val_eq _ hj, ?_, ?_, ?_, rfl⟩
    · rw [get_val_eq _ hj, slot_set_if_greater_same _ hj (by omega)]
    · intro k hk hne
      rw [get_val_eq _ hk, get_val_eq _ hk, slot_set_if_greater_other _ _ _ hne]
    · intro p hp
      show (if rho > slot ho.registers (HashFuncGen.hash s >>> (32 - B_BITS))
        then setSlot ho.registers (HashFuncGen.hash s >>> (32 - B_BITS)) rho
        else ho.registers) p = ho.registers p
      split
      · simp only [setSlot, if_neg hp]
      · rfl

theorem add_frame_witness :
    (∃ (rho old : Int) (h1 : HyperLogLog),
      HyperLogLog.get_rho sample16.b
        ((HashFuncGen.hash [97] &&& ((1 <<< (32 - sample16.b).toNat) - 1))
          ||| 1 <<< (32 - sample16.b).toNat) = .ok rho ∧
      sample16.add [97] = .ok h1 ∧
      sample16.registers[HashFuncGen.hash [97] >>> (32 - sample16.b).toNat]? = some old ∧
      h1.registers[HashFuncGen.hash [97] >>> (32 - sample16.b).toNat]? = some (max old rho) ∧
      (∀ k : Nat, k ≠ HashFuncGen.hash [97] >>> (32 - sample16.b).toNat →
        h1.registers[k]? = sample16.registers[k]?) ∧
      h1.registers.length = sample16.registers.length ∧
      h1.b = sample16.b ∧ h1.m = sample16.m ∧ h1.alphaMM = sample16.alphaMM) ∧
    (∃ (rho old : Nat) (o1 : HyperLogLogOptimized),
      HyperLogLogOptimized.get_rho
        ((HashFuncGen.hash [97] &&& ((1 <<< (32 - B_BITS)) - 1)) ||| 1 <<< (32 - B_BITS))
        = .ok rho ∧
      HyperLogLogOptimized.new.add [97] = .ok o1 ∧
      HyperLogLogOptimized.get_val HyperLogLogOptimized.new.registers
        (HashFuncGen.hash [97] >>> (32 - B_BITS)) = .ok old ∧
      HyperLogLogOptimized.get_val o1.registers (HashFuncGen.hash [97] >>> (32 - B_BITS))
        = .ok (max old rho) ∧
      (∀ k : Nat, k < M_REGS → k ≠ HashFuncGen.hash [97] >>> (32 - B_BITS) →
        HyperLogLogOptimized.get_val o1.registers k
          = HyperLogLogOptimized.get_val HyperLogLogOptimized.new.registers k) ∧
      (∀ p : Fin TOTAL_BITS,
        ¬ ((HashFuncGen.hash [97] >>> (32 - B_BITS)) * BITS_PER_REG ≤ p.val ∧
           p.val < (HashFuncGen.hash [97] >>> (32 - B_BITS)) * BITS_PER_REG + BITS_PER_REG) →
        o1.registers p = HyperLogLogOptimized.new.registers p) ∧
      o1.alphaMM = HyperLogLogOptimized.new.alphaMM) :=
  add_frame sample16 sample16_wf HyperLogLogOptimized.new [97]

/-- C10. Bucket index in range: for every precision `b` from 4 to 16 and
every string `s`, `j = hash(s) >> (32 - b)` is below `m = 2^b`; on a
well-formed state `registers[j]` is inside the vector and `add` completes; in
the bit-packed variant the index is below 1024, every bit position
`5 * j + k` with `k < 5` is below `TOTAL_BITS`, and `add` completes from every
state, so the out-of-range result is never produced. -/
theorem bucket_index_in_range (b : Int) (h4 : 4 ≤ b) (h16 : b ≤ 16) (s : List Int)
    (h : HyperLogLog) (hwf : h.WF) (hb : h.b = b) :
    HashFuncGen.hash s >>> (32 - b).toNat < 2 ^ b.toNat ∧
    (HashFuncGen.hash s >>> (32 - b).toNat < h.registers.length ∧
      ∃ h1, h.add s = .ok h1) ∧
    HashFuncGen.hash s >>> (32 - B_BITS) < M_REGS ∧
    (∀ k, k < BITS_PER_REG →
      (HashFuncGen.hash s >>> (32 - B_BITS)) * BITS_PER_REG + k < TOTAL_BITS) ∧
    (∀ ho : HyperLogLogOptimized, ∃ o1, ho.add s = .ok o1) := by
  refine ⟨bucket_lt h4 h16 s, ?_, packed_bucket_lt s, ?_, ?_⟩
  · subst hb
    obtain ⟨_, hj, _, _, _, hadd⟩ := normal_add_spec h hwf s
    exact ⟨hj, _, hadd⟩
  · intro k hk
    exact slot_pos_lt (packed_bucket_lt s) hk
  · intro ho
    obtain ⟨_, _, _, _, hadd⟩ := packed_add_spec ho s
    exact ⟨_, hadd⟩

theorem bucket_index_in_range_witness :
    HashFuncGen.hash [97, 98] >>> (32 - (4 : Int)).toNat < 2 ^ (4 : Int).toNat ∧
    (HashFuncGen.hash [97, 98] >>> (32 - (4 : Int)).toNat < sample16.registers.length ∧
      ∃ h1, sample16.add [97, 98] = .ok h1) ∧
    HashFuncGen.hash [97, 98] >>> (32 - B_BITS) < M_REGS ∧
    (∀ k, k < BITS_PER_REG →
      (HashFuncGen.hash [97, 98] >>> (32 - B_BITS)) * BITS_PER_REG + k < TOTAL_BITS) ∧
    (∀ ho : HyperLogLogOptimized, ∃ o1, ho.add [97, 98] = .ok o1) :=
  bucket_index_in_range 4 (by decide) (by decide) [97, 98] sample16 sample16_wf rfl

/-- C8. Rank computation: for every precision `b` from 4 to 16 and every
`w < 2^(32-b)`, `get_rho(w | (1 << (32-b)))` returns `32 - b + 1` when `w = 0`
and otherwise `1 + k`, where `k` is the position of the lowest set bit of `w`
(bit `k` is set and all bits below are clear, so `k` is the number of trailing
zero bits).  In particular an odd `w` gives rank 1; and for `b = 10` both
variants give rank 23 at `w = 0`, the bit-packed `get_rho` following the same
rule. -/
theorem rank_computation (b : Int) (h4 : 4 ≤ b) (h16 : b ≤ 16) (w : Nat)
    (hw : w < 2 ^ (32 - b).toNat) :
    (w = 0 → HyperLogLog.get_rho b (w ||| 1 <<< (32 - b).toNat) = .ok (32 - b + 1)) ∧
    (w ≠ 0 → ∃ k : Nat, w.testBit k = true ∧ (∀ i, i < k → w.testBit i = false) ∧
      HyperLogLog.get_rho b (w ||| 1 <<< (32 - b).toNat) = .ok (1 + (k : Int))) ∧
    (w % 2 = 1 → HyperLogLog.get_rho b (w ||| 1 <<< (32 - b).toNat) = .ok 1) ∧
    (b = 10 →
      (w = 0 → HyperLogLog.get_rho 10 (w ||| 1 <<< 22) = .ok 23 ∧
        HyperLogLogOptimized.get_rho (w ||| 1 <<< (32 - B_BITS)) = .ok 23) ∧
      (w ≠ 0 → ∃ k : Nat, w.testBit k = true ∧ (∀ i, i < k → w.testBit i = false) ∧
        HyperLogLogOptimized.get_rho (w ||| 1 <<< (32 - B_BITS)) = .ok (1 + k)) ∧
      (w % 2 = 1 → HyperLogLogOptimized.get_rho (w ||| 1 <<< (32 - B_BITS)) = .ok 1)) := by
  have hsh : (32 - b).toNat < 32 := by omega
  obtain ⟨k, _, hk0, hk1, hrho⟩ := normal_rho_sentinel b hsh hw
  have hodd : ∀ k : Nat, w % 2 = 1 → w.testBit k = true → (∀ i, i < k → w.testBit i = false) →
      k = 0 := by
    intro k hw1 _ hlow
    by_contra hne
    have := hlow 0 (Nat.pos_of_ne_zero hne)
    rw [Nat.testBit_zero] at this
    simp [hw1] at this
  refine ⟨?_, ?_, ?_, ?_⟩
  · intro h0
    rw [hrho, hk0 h0]
    congr 1
    omega
  · intro hne
    exact ⟨k, (hk1 hne).1, (hk1 hne).2, hrho⟩
  · intro hw1
    have hne : w ≠ 0 := by omega
    have := hodd k hw1 (hk1 hne).1 (hk1 hne).2
    rw [hrho, this]
    rfl
  · intro hb
    subst hb
    have hB : 32 - B_BITS = 22 := by rfl
    have hw2 : w < 2 ^ 22 := hw
    obtain ⟨k2, _, hp0, hp1, hprho⟩ := packed_rho_sentinel (show 22 < 32 by decide) hw2
    rw [hB]
    refine ⟨?_, ?_, ?_⟩
    · intro h0
      constructor
      · have := hk0 h0
        have h22 : (32 - (10 : Int)).toNat = 22 := rfl
        rw [h22] at hrho this
        rw [hrho, this]
        rfl
      · rw [hprho, hp0 h0]
    · intro hne
      exact ⟨k2, (hp1 hne).1, (hp1 hne).2, hprho⟩
    · intro hw1
      have hne : w ≠ 0 := by omega
      have := hodd k2 hw1 (hp1 hne).1 (hp1 hne).2
      rw [hprho, this]

theorem rank_computation_witness :
    ((12 : Nat) = 0 →
      HyperLogLog.get_rho 10 (12 ||| 1 <<< (32 - (10 : Int)).toNat) = .ok (32 - 10 + 1)) ∧
    ((12 : Nat) ≠ 0 → ∃ k : Nat, (12 : Nat).testBit k = true ∧
      (∀ i, i < k → (12 : Nat).testBit i = false) ∧
      HyperLogLog.get_rho 10 (12 ||| 1 <<< (32 - (10 : Int)).toNat) = .ok (1 + (k : Int))) ∧
    (12 % 2 = 1 → HyperLogLog.get_rho 10 (12 ||| 1 <<< (32 - (10 : Int)).toNat) = .ok 1) ∧
    ((10 : Int) = 10 →
      ((12 : Nat) = 0 → HyperLogLog.get_rho 10 (12 ||| 1 <<< 22) = .ok 23 ∧
        HyperLogLogOptimized.get_rho (12 ||| 1 <<< (32 - B_BITS)) = .ok 23) ∧
      ((12 : Nat) ≠ 0 → ∃ k : Nat, (12 : Nat).testBit k = true ∧
        (∀ i, i < k → (12 : Nat).testBit i = false) ∧
        HyperLogLogOptimized.get_rho (12 ||| 1 <<< (32 - B_BITS)) = .ok (1 + k)) ∧
      (12 % 2 = 1 → HyperLogLogOptimized.get_rho (12 ||| 1 <<< (32 - B_BITS)) = .ok 1)) :=
  rank_computation 10 (by decide) (by decide) 12 (by decide)

theorem toU32_natCast {c : Nat} (hc : c < 4294967296) : toU32 (c : Int) = c := by
  unfold toU32
  omega

theorem mix_eq_ref_mix (h : Nat) {c : Nat} (hc : c < 4294967296) :
    HashFuncGen.mix h (c : Int) = HashFuncGen.ref_mix h c := by
  simp only [HashFuncGen.mix, HashFuncGen.ref_mix, toU32_natCast hc]

theorem foldl_mix_eq (signedChar : Bool) (bytes : List Nat) :
    (∀ c ∈ bytes, c < 256 ∧ (signedChar = true → c < 128)) →
    ∀ h, (bytes.map (charOfByte signedChar)).foldl HashFuncGen.mix h
      = bytes.foldl HashFuncGen.ref_mix h := by
  induction bytes with
  | nil => intro _ h; rfl
  | cons c cs ih =>
    intro hall h
    obtain ⟨hc, hs⟩ := hall c (List.mem_cons_self _ _)
    have hchar : charOfByte signedChar c = (c : Int) := by
      unfold charOfByte
      cases signedChar
      · simp
      · have := hs rfl
        have : ¬ (128 ≤ c) := by omega
        simp [this]
    simp only [List.map_cons, List.foldl_cons, hchar, mix_eq_ref_mix h (by omega : c < 4294967296)]
    exact ih (fun d hd => hall d (List.mem_cons_of_mem _ hd)) _

/-- Agreement of `hash` with the reference algorithm where the `char` value of
every byte is the byte itself: on all bytes where plain `char` is unsigned, and
on bytes `0..127` where it is signed. -/
theorem hash_eq_ref (signedChar : Bool) (bytes : List Nat)
    (hall : ∀ c ∈ bytes, c < 256 ∧ (signedChar = true → c < 128)) :
    HashFuncGen.hash (bytes.map (charOfByte signedChar)) = HashFuncGen.hash_ref bytes := by
  unfold HashFuncGen.hash HashFuncGen.hash_ref HashFuncGen.finalize
  rw [foldl_mix_eq signedChar bytes hall]

/-- C5. Evaluation of `hash` at the one-byte string `"\x80"` where plain
`char` is signed: the byte enters `h ^= c` as `0xFFFFFF80`, and the result
`1703968751` differs from the reference value `1953045166`; the empty string
hashes to the reference value. -/
theorem hash_signed_high_byte :
    charOfByte true 128 = -128 ∧ toU32 (-128) = 0xFFFFFF80 ∧
    HashFuncGen.hash ([128].map (charOfByte true)) = 1703968751 ∧
    HashFuncGen.hash_ref [128] = 1953045166 ∧
    HashFuncGen.hash ([128].map (charOfByte true)) ≠ HashFuncGen.hash_ref [128] ∧
    HashFuncGen.hash [] = HashFuncGen.hash_ref [] := by
  decide

/-- C6, as stated, fails: precision 0 is outside the valid range, yet the
constructor returns an estimator (one register, no error), and `add` on it
evaluates `x >> 32`, a shift by the full width. -/
theorem construction_accepts_zero :
    (0 : Int) < 4 ∧
    ∃ h, HyperLogLog.new 0 = .ok h ∧ h.b = 0 ∧ h.m = 1 ∧ h.registers = [0] ∧
      shift_count (32 - h.b) = .error .undefinedShift ∧
      h.add [] = .error .undefinedShift := by
  refine ⟨by decide, _, rfl, rfl, rfl, rfl, rfl, rfl⟩

theorem new_ok {b : Int} (h0 : 0 ≤ b) (h30 : b ≤ 30) :
    HyperLogLog.new b = .ok
      { b := b, m := 2 ^ b.toNat,
        alphaMM := HyperLogLog.get_alpha (2 ^ b.toNat) * ((2 ^ b.toNat : Int) : ℚ)
          * ((2 ^ b.toNat : Int) : ℚ),
        registers := List.replicate (2 ^ b.toNat) 0 } := by
  have hc : 0 ≤ b ∧ b < 31 := ⟨h0, by omega⟩
  have hn : ((2 : Int) ^ b.toNat).toNat = 2 ^ b.toNat := by
    have : ((2 : Int) ^ b.toNat) = ((2 ^ b.toNat : Nat) : Int) := by push_cast; rfl
    rw [this, Int.toNat_ofNat]
  simp only [HyperLogLog.new, if_pos hc, hn]

/-- C6, amended. The constructor validates nothing: for every `b` from 0 to
30 it completes, storing `b`, `m = 2^b`, `alphaMM = alpha(m) * m * m` and
`2^b` zeroed registers.  For `b` from 4 to 16 the state is well formed, the
shift count `32 - b` that `add` uses lies in `16..28`, and `add` completes for
every string. -/
theorem construction_unvalidated (b : Int) (h0 : 0 ≤ b) (h30 : b ≤ 30) :
    ∃ h, HyperLogLog.new b = .ok h ∧ h.b = b ∧ h.m = 2 ^ b.toNat ∧
      h.alphaMM = HyperLogLog.get_alpha h.m * (h.m : ℚ) * (h.m : ℚ) ∧
      h.registers = List.replicate (2 ^ b.toNat) 0 ∧
      (4 ≤ b ∧ b ≤ 16 → h.WF ∧ shift_count (32 - b) = .ok (32 - b).toNat ∧
        16 ≤ (32 - b).toNat ∧ (32 - b).toNat ≤ 28 ∧ ∀ s, ∃ h1, h.add s = .ok h1) := by
  refine ⟨_, new_ok h0 h30, rfl, rfl, rfl, rfl, ?_⟩
  rintro ⟨h4, h16⟩
  have hwf : HyperLogLog.WF
      { b := b, m := 2 ^ b.toNat,
        alphaMM := HyperLogLog.get_alpha (2 ^ b.toNat) * ((2 ^ b.toNat : Int) : ℚ)
          * ((2 ^ b.toNat : Int) : ℚ),
        registers := List.replicate (2 ^ b.toNat) 0 } :=
    ⟨h4, h16, rfl, List.length_replicate _ _⟩
  refine ⟨hwf, shift_count_ok h4 h16, by omega, by omega, ?_⟩
  intro s
  obtain ⟨h1, e1, _⟩ := normal_add_wf _ hwf s
  exact ⟨h1, e1⟩

theorem construction_unvalidated_witness :
    ∃ h, HyperLogLog.new 10 = .ok h ∧ h.b = 10 ∧ h.m = 2 ^ (10 : Int).toNat ∧
      h.alphaMM = HyperLogLog.get_alpha h.m * (h.m : ℚ) * (h.m : ℚ) ∧
      h.registers = List.replicate (2 ^ (10 : Int).toNat) 0 ∧
      h.WF ∧ shift_count (32 - 10) = .ok (32 - (10 : Int)).toNat ∧
      16 ≤ (32 - (10 : Int)).toNat ∧ (32 - (10 : Int)).toNat ≤ 28 ∧
      ∀ s, ∃ h1, h.add s = .ok h1 := by
  obtain ⟨h, e, hb, hm, ha, hr, hin⟩ := construction_unvalidated 10 (by decide) (by decide)
  exact ⟨h, e, hb, hm, ha, hr, hin ⟨by decide, by decide⟩⟩

theorem foldl_sum_replicate_zero (n : Nat) :
    ∀ init : ℚ, (List.replicate n (0 : Int)).foldl (fun acc val => acc + (2 : ℚ) ^ (-val)) init
      = init + n := by
  induction n with
  | zero => intro init; simp
  | succ n ih =>
    intro init
    rw [List.replicate_succ, List.foldl_cons, ih]
    push_cast
    simp only [neg_zero, zpow_zero]
    ring

theorem foldl_count_replicate_zero (n : Nat) :
    ∀ init : Int, (List.replicate n (0 : Int)).foldl
      (fun V val => if val = 0 then V + 1 else V) init = init + n := by
  induction n with
  | zero => intro init; simp
  | succ n ih =>
    intro init
    rw [List.replicate_succ, List.foldl_cons, if_pos rfl, ih]
    push_cast
    ring

theorem sum_inv_fresh (n : Nat) : HyperLogLog.sum_inv (List.replicate n 0) = n := by
  unfold HyperLogLog.sum_inv
  rw [foldl_sum_replicate_zero, zero_add]

theorem count_zero_fresh (n : Nat) : HyperLogLog.count_zero (List.replicate n 0) = n := by
  unfold HyperLogLog.count_zero
  rw [foldl_count_replicate_zero, zero_add]

theorem alpha_1024_le : HyperLogLog.get_alpha 1024 * 1024 * 1024 / 1024 ≤ (2.5 : ℚ) * 1024 := by
  norm_num [HyperLogLog.get_alpha]

/-- C7. Empty-estimator estimate: a freshly constructed estimator with
`b = 10` has harmonic sum 1024, its raw estimate is at most `2.5 * m`, so
`estimate()` takes the small-range branch with `V = 1024` and returns
`1024 * ln(1024 / 1024) = 0`, in the byte-per-register and in the bit-packed
variant. -/
theorem empty_estimate_zero :
    (∃ h, HyperLogLog.new 10 = .ok h ∧
      HyperLogLog.sum_inv h.registers = 1024 ∧
      h.alphaMM / HyperLogLog.sum_inv h.registers ≤ 2.5 * (h.m : ℚ) ∧
      HyperLogLog.count_zero h.registers = 1024 ∧
      h.estimate Real.log = 0) ∧
    (HyperLogLogOptimized.sum_inv HyperLogLogOptimized.new.registers = .ok 1024 ∧
      HyperLogLogOptimized.new.alphaMM / 1024 ≤ 2.5 * (M_REGS : ℚ) ∧
      HyperLogLogOptimized.count_zero HyperLogLogOptimized.new.registers = .ok 1024 ∧
      HyperLogLogOptimized.new.estimate Real.log = .ok 0) := by
  have hs : HyperLogLog.sum_inv (List.replicate 1024 0) = 1024 := by
    rw [sum_inv_fresh]; norm_num
  have hc : HyperLogLog.count_zero (List.replicate 1024 0) = 1024 := by
    rw [count_zero_fresh]; norm_num
  have hest : (HyperLogLog.estimate Real.log
      { b := 10, m := 1024, alphaMM := HyperLogLog.get_alpha 1024 * 1024 * 1024,
        registers := List.replicate 1024 0 }) = 0 := by
    unfold HyperLogLog.estimate
    simp only [hs, hc]
    rw [if_pos (by exact_mod_cast alpha_1024_le), if_pos (by norm_num)]
    norm_num
  have hM0 : M_REGS = 1024 := by decide
  have hso := sameStore_sum_inv sameStore_fresh
  have hco := sameStore_count_zero sameStore_fresh
  rw [hM0] at hso hco
  rw [hs] at hso
  rw [hc] at hco
  refine ⟨⟨_, new_ten, hs, ?_, hc, hest⟩, hso, ?_, hco, ?_⟩
  · show HyperLogLog.get_alpha 1024 * 1024 * 1024 / HyperLogLog.sum_inv (List.replicate 1024 0)
      ≤ 2.5 * ((1024 : Int) : ℚ)
    rw [hs]
    exact_mod_cast alpha_1024_le
  · rw [← sameState_fresh.2.2.1, hM0]
    exact_mod_cast alpha_1024_le
  · rw [sameState_estimate Real.log sameState_fresh, hest]

/-! ## Value range, estimate, round trip, closed form and termination -/

theorem regsBounded_replicate (b : Int) (h16 : b ≤ 16) (n : Nat) :
    RegsBounded b (List.replicate n 0) := by
  intro i v hv
  rw [List.getElem?_replicate] at hv
  split at hv
  · have : v = 0 := by simpa using hv.symm
    subst this
    constructor <;> omega
  · exact absurd hv (by simp)

theorem fresh_wf (b : Int) (h4 : 4 ≤ b) (h16 : b ≤ 16) :
    HyperLogLog.WF
      { b := b, m := 2 ^ b.toNat,
        alphaMM := HyperLogLog.get_alpha (2 ^ b.toNat) * ((2 ^ b.toNat : Int) : ℚ)
          * ((2 ^ b.toNat : Int) : ℚ),
        registers := List.replicate (2 ^ b.toNat) 0 } :=
  ⟨h4, h16, rfl, List.length_replicate _ _⟩

theorem normal_add_bounded (h : HyperLogLog) (hwf : h.WF) (hbd : RegsBounded h.b h.registers)
    (s : List Int) :
    ∃ h2, h.add s = .ok h2 ∧ h2.WF ∧ h2.b = h.b ∧ RegsBounded h2.b h2.registers := by
  obtain ⟨rho, hj, _, h1, hle, hadd⟩ := normal_add_spec h hwf s
  obtain ⟨h2, e2, hwf2, hb2, _⟩ := normal_add_wf h hwf s
  refine ⟨h2, e2, hwf2, hb2, ?_⟩
  have heq : h2 = { h with registers :=
      (h.registers.set (HashFuncGen.hash s >>> (32 - h.b).toNat)
        (max (h.registers.get ⟨HashFuncGen.hash s >>> (32 - h.b).toNat, hj⟩) rho)) } := by
    rw [hadd] at e2
    exact (Except.ok.inj e2).symm
  subst heq
  intro i v hv
  have hold := hbd (HashFuncGen.hash s >>> (32 - h.b).toNat)
    (h.registers.get ⟨HashFuncGen.hash s >>> (32 - h.b).toNat, hj⟩)
    (by rw [List.getElem?_eq_getElem hj]; rfl)
  by_cases hij : HashFuncGen.hash s >>> (32 - h.b).toNat = i
  · subst hij
    have hv2 : max (h.registers.get ⟨HashFuncGen.hash s >>> (32 - h.b).toNat, hj⟩) rho = v := by
      simpa [List.getElem?_set, hj] using hv
    show 0 ≤ v ∧ v ≤ 32 - h.b + 1
    rw [← hv2]
    exact ⟨le_trans hold.1 (le_max_left _ _), max_le hold.2 hle⟩
  · have hv2 : h.registers[i]? = some v := by
      have := hv
      simp only [] at this
      rwa [List.getElem?_set_ne hij] at this
    exact hbd i v hv2

theorem normal_addAll_bounded (ss : List (List Int)) :
    ∀ h : HyperLogLog, h.WF → RegsBounded h.b h.registers →
      ∃ h2, h.addAll ss = .ok h2 ∧ h2.WF ∧ h2.b = h.b ∧ RegsBounded h2.b h2.registers := by
  induction ss with
  | nil =>
    intro h hwf hbd
    exact ⟨h, rfl, hwf, rfl, hbd⟩
  | cons s ss ih =>
    intro h hwf hbd
    obtain ⟨h1, e1, hwf1, hb1, hbd1⟩ := normal_add_bounded h hwf hbd s
    obtain ⟨h2, e2, hwf2, hb2, hbd2⟩ := ih h1 hwf1 hbd1
    refine ⟨h2, ?_, hwf2, hb2.trans hb1, hbd2⟩
    simp only [HyperLogLog.addAll, List.foldlM_cons, e1, bind, Except.bind]
    exact e2

theorem packed_add_bounded (ho : HyperLogLogOptimized) (hbd : SlotsBounded 23 ho.registers)
    (s : List Int) :
    ∃ o2, ho.add s = .ok o2 ∧ SlotsBounded 23 o2.registers := by
  obtain ⟨rho, _, _, h23, hadd⟩ := packed_add_spec ho s
  refine ⟨_, hadd, ?_⟩
  intro j hj
  show slot (if rho > slot ho.registers (HashFuncGen.hash s >>> (32 - B_BITS))
        then setSlot ho.registers (HashFuncGen.hash s >>> (32 - B_BITS)) rho
        else ho.registers) j ≤ 23
  by_cases hij : j = HashFuncGen.hash s >>> (32 - B_BITS)
  · subst hij
    rw [slot_set_if_greater_same _ hj (by omega)]
    exact max_le (hbd _ hj) h23
  · rw [slot_set_if_greater_other _ _ _ hij]
    exact hbd j hj

theorem packed_addAll_bounded (ss : List (List Int)) :
    ∀ ho : HyperLogLogOptimized, SlotsBounded 23 ho.registers →
      ∃ o2, ho.addAll ss = .ok o2 ∧ SlotsBounded 23 o2.registers := by
  induction ss with
  | nil =>
    intro ho hbd
    exact ⟨ho, rfl, hbd⟩
  | cons s ss ih =>
    intro ho hbd
    obtain ⟨o1, e1, hbd1⟩ := packed_add_bounded ho hbd s
    obtain ⟨o2, e2, hbd2⟩ := ih o1 hbd1
    refine ⟨o2, ?_, hbd2⟩
    simp only [HyperLogLogOptimized.addAll, List.foldlM_cons, e1, bind, Except.bind]
    exact e2

/-- C11. Register value range: in every state reached from construction by a
sequence of `add` calls every register lies in `[0, 32 - b + 1]`, hence in
`[0, 31]`, for the byte-per-register estimator with any precision from 4 to 16
and, with bound 23, for the bit-packed estimator.  For every string the rank
that the bit-packed `add` computes is at most 23, so the clamp to 31 leaves it
unchanged and the value handed to `set_val` has no bit above the fifth. -/
theorem register_value_range (b : Int) (h4 : 4 ≤ b) (h16 : b ≤ 16) (ss : List (List Int))
    (s : List Int) :
    (∃ h0 h, HyperLogLog.new b = .ok h0 ∧ h0.addAll ss = .ok h ∧
      ∀ (i : Nat) (v : Int), h.registers[i]? = some v → 0 ≤ v ∧ v ≤ 32 - b + 1 ∧ v ≤ 31) ∧
    (∃ ho, HyperLogLogOptimized.new.addAll ss = .ok ho ∧
      ∀ j, j < M_REGS → ∃ v, HyperLogLogOptimized.get_val ho.registers j = .ok v ∧
        v ≤ 32 - B_BITS + 1 ∧ v ≤ 31) ∧
    (∃ rho, HyperLogLogOptimized.get_rho
        ((HashFuncGen.hash s &&& ((1 <<< (32 - B_BITS)) - 1)) ||| 1 <<< (32 - B_BITS)) = .ok rho ∧
      (if rho > 31 then 31 else rho) = rho ∧ rho % 2 ^ BITS_PER_REG = rho) := by
  refine ⟨?_, ?_, ?_⟩
  · have e0 := new_ok (show 0 ≤ b by omega) (show b ≤ 30 by omega)
    have hwf0 := fresh_wf b h4 h16
    obtain ⟨h, e, _, hb, hbd⟩ :=
      normal_addAll_bounded ss _ hwf0 (regsBounded_replicate b h16 _)
    refine ⟨_, h, e0, e, ?_⟩
    intro i v hv
    have := hbd i v hv
    rw [hb] at this
    exact ⟨this.1, this.2, by have := this.2; show v ≤ 31; simp only [] at this; omega⟩
  · have hbd0 : SlotsBounded 23 HyperLogLogOptimized.new.registers := by
      intro j _
      show slot (fun _ => false) j ≤ 23
      rw [slot_zero]; omega
    obtain ⟨ho, e, hbd⟩ := packed_addAll_bounded ss _ hbd0
    refine ⟨ho, e, ?_⟩
    intro j hj
    have hB : 32 - B_BITS + 1 = 23 := by decide
    exact ⟨slot ho.registers j, get_val_eq _ hj, by rw [hB]; exact hbd j hj,
      le_trans (hbd j hj) (by decide)⟩
  · obtain ⟨rho, hrho, _, h23, _⟩ := packed_add_spec HyperLogLogOptimized.new s
    refine ⟨rho, hrho, if_neg (by omega), ?_⟩
    have : BITS_PER_REG = 5 := rfl
    rw [this]
    omega

theorem register_value_range_witness :
    (∃ h0 h, HyperLogLog.new 4 = .ok h0 ∧ h0.addAll [[97], [98, 99]] = .ok h ∧
      ∀ (i : Nat) (v : Int), h.registers[i]? = some v → 0 ≤ v ∧ v ≤ 32 - 4 + 1 ∧ v ≤ 31) ∧
    (∃ ho, HyperLogLogOptimized.new.addAll [[97], [98, 99]] = .ok ho ∧
      ∀ j, j < M_REGS → ∃ v, HyperLogLogOptimized.get_val ho.registers j = .ok v ∧
        v ≤ 32 - B_BITS + 1 ∧ v ≤ 31) ∧
    (∃ rho, HyperLogLogOptimized.get_rho
        ((HashFuncGen.hash [97] &&& ((1 <<< (32 - B_BITS)) - 1)) ||| 1 <<< (32 - B_BITS))
        = .ok rho ∧
      (if rho > 31 then 31 else rho) = rho ∧ rho % 2 ^ BITS_PER_REG = rho) :=
  register_value_range 4 (by decide) (by decide) [[97], [98, 99]] [97]

theorem foldl_sum_eq (regs : List Int) :
    ∀ init : ℚ, regs.foldl (fun acc val => acc + (2 : ℚ) ^ (-val)) init
      = init + (regs.map (fun v => (2 : ℚ) ^ (-v))).sum := by
  induction regs with
  | nil => intro init; simp
  | cons v vs ih =>
    intro init
    rw [List.foldl_cons, ih, List.map_cons, List.sum_cons]
    ring

theorem sum_inv_eq_spec (regs : List Int) : HyperLogLog.sum_inv regs = sum_inv_spec regs := by
  unfold HyperLogLog.sum_inv sum_inv_spec
  rw [foldl_sum_eq, zero_add]

theorem foldl_count_eq (regs : List Int) :
    ∀ init : Int, regs.foldl (fun V val => if val = 0 then V + 1 else V) init
      = init + (regs.count 0 : Nat) := by
  induction regs with
  | nil => intro init; simp
  | cons v vs ih =>
    intro init
    rw [List.foldl_cons, ih]
    by_cases hv : v = 0
    · subst hv
      rw [if_pos rfl, List.count_cons_self]
      push_cast
      ring
    · rw [if_neg hv, List.count_cons_of_ne (Ne.symm hv)]

theorem count_zero_eq_count (regs : List Int) :
    HyperLogLog.count_zero regs = ((regs.count 0 : Nat) : Int) := by
  unfold HyperLogLog.count_zero
  rw [foldl_count_eq, zero_add]

theorem normal_estimate_eq_spec {R : Type} [Field R] (ln : R → R) (h : HyperLogLog) :
    h.estimate ln = estimate_spec ln h.m h.alphaMM h.registers := by
  unfold HyperLogLog.estimate estimate_spec
  rw [sum_inv_eq_spec, count_zero_eq_count]
  by_cases h1 : h.alphaMM / sum_inv_spec h.registers ≤ 2.5 * (h.m : ℚ)
  · by_cases h2 : List.count 0 h.registers > 0
    · have h2i : ((List.count 0 h.registers : Nat) : Int) > 0 := by exact_mod_cast h2
      simp only [h1, h2, h2i, if_true, and_self, Int.cast_natCast]
    · have h2i : ¬ ((List.count 0 h.registers : Nat) : Int) > 0 := by
        intro hc; exact h2 (by exact_mod_cast hc)
      simp only [h1, h2, h2i, if_true, if_false, and_false]
  · simp only [h1, if_false, false_and]

theorem sameStore_slots (r : Bitset) : SameStore (slots_list r) r := by
  refine ⟨by unfold slots_list; rw [List.length_map, List.length_range], ?_⟩
  intro i hi
  unfold slots_list
  rw [List.getElem?_map, List.getElem?_range hi]
  rfl

theorem sameState_of_store (ho : HyperLogLogOptimized) (l : List Int)
    (h : SameStore l ho.registers) :
    SameState { b := 10, m := 1024, alphaMM := ho.alphaMM, registers := l } ho :=
  ⟨rfl, rfl, rfl, h⟩

/-- C12. The result of `estimate()` on every register state is the specified
formula: with `sum_inv` the sum of `2^(-register[k])`, `E = alphaMM / sum_inv`
and `V` the number of registers equal to 0, it is `m * ln(m / V)` when
`E <= 2.5 * m` and `V > 0`, and `E` otherwise; nothing else is applied.  In
the bit-packed variant the registers are the 1024 values `get_val` returns. -/
theorem estimate_formula (h : HyperLogLog) (ho : HyperLogLogOptimized) :
    (∀ (R : Type) [Field R] (ln : R → R),
      h.estimate ln = estimate_spec ln h.m h.alphaMM h.registers) ∧
    (∃ regs : List Int, regs.length = M_REGS ∧
      (∀ j, j < M_REGS → ∃ v, HyperLogLogOptimized.get_val ho.registers j = .ok v ∧
        regs[j]? = some (v : Int)) ∧
      ∀ (R : Type) [Field R] (ln : R → R),
        ho.estimate ln = .ok (estimate_spec ln (M_REGS : Int) ho.alphaMM regs)) := by
  refine ⟨fun R _ ln => normal_estimate_eq_spec ln h, slots_list ho.registers,
    (sameStore_slots _).1, ?_, ?_⟩
  · intro j hj
    exact ⟨slot ho.registers j, get_val_eq _ hj, (sameStore_slots _).2 j hj⟩
  · intro R _ ln
    have hM : ((M_REGS : Nat) : Int) = 1024 := by decide
    have hst := sameState_of_store ho (slots_list ho.registers) (sameStore_slots ho.registers)
    have e := sameState_estimate ln hst
    have e2 := normal_estimate_eq_spec ln
      { b := 10, m := 1024, alphaMM := ho.alphaMM, registers := slots_list ho.registers }
    rw [e, e2, hM]

theorem foldl_sum_pos (regs : List Int) :
    ∀ init : ℚ, 0 ≤ init → (regs ≠ [] ∨ 0 < init) →
      0 < regs.foldl (fun acc val => acc + (2 : ℚ) ^ (-val)) init := by
  induction regs with
  | nil =>
    intro init _ h
    rcases h with h | h
    · exact absurd rfl h
    · exact h
  | cons v vs ih =>
    intro init h0 _
    rw [List.foldl_cons]
    have hpos : (0 : ℚ) < (2 : ℚ) ^ (-v) := zpow_pos (by norm_num) _
    exact ih _ (by linarith) (Or.inr (by linarith))

theorem sum_inv_pos {regs : List Int} (hne : 1 ≤ regs.length) : 0 < HyperLogLog.sum_inv regs := by
  unfold HyperLogLog.sum_inv
  apply foldl_sum_pos regs 0 (le_refl _)
  left
  intro h
  rw [h] at hne
  simp at hne

theorem count_zero_nonneg (regs : List Int) : 0 ≤ HyperLogLog.count_zero regs := by
  rw [count_zero_eq_count]
  exact Int.natCast_nonneg _

theorem count_zero_le_length (regs : List Int) :
    HyperLogLog.count_zero regs ≤ (regs.length : Int) := by
  rw [count_zero_eq_count]
  exact_mod_cast List.count_le_length 0 regs

theorem normal_estimate_cases (ln : ℝ → ℝ) (h : HyperLogLog) :
    h.estimate ln = ((h.alphaMM / HyperLogLog.sum_inv h.registers : ℚ) : ℝ) ∨
    (0 < HyperLogLog.count_zero h.registers ∧
      h.alphaMM / HyperLogLog.sum_inv h.registers ≤ 2.5 * (h.m : ℚ) ∧
      h.estimate ln
        = (h.m : ℝ) * ln ((h.m : ℝ) / (HyperLogLog.count_zero h.registers : ℝ))) := by
  unfold HyperLogLog.estimate
  by_cases h1 : h.alphaMM / HyperLogLog.sum_inv h.registers ≤ 2.5 * (h.m : ℚ)
  · by_cases h2 : HyperLogLog.count_zero h.registers > 0
    · right
      refine ⟨h2, h1, ?_⟩
      simp only [h1, h2, if_true]
    · left
      simp only [h1, h2, if_true, if_false]
  · left
    simp only [h1, if_false]

theorem estimate_cases_mk (ln : ℝ → ℝ) (b m : Int) (a : ℚ) (regs : List Int) :
    HyperLogLog.estimate ln ⟨b, m, a, regs⟩ = ((a / HyperLogLog.sum_inv regs : ℚ) : ℝ) ∨
    (0 < HyperLogLog.count_zero regs ∧ a / HyperLogLog.sum_inv regs ≤ 2.5 * (m : ℚ) ∧
      HyperLogLog.estimate ln ⟨b, m, a, regs⟩
        = (m : ℝ) * ln ((m : ℝ) / (HyperLogLog.count_zero regs : ℝ))) :=
  normal_estimate_cases ln ⟨b, m, a, regs⟩

/-- C13. `estimate()` is always defined: on every state with at least one
register the harmonic sum is strictly positive, so `alphaMM / sum_inv` does
not divide by zero, and the result is either the raw estimate or, only when
the zero count `V` is positive, `m * ln(m / V)`; whenever `V` is not positive
the result does not depend on the logarithm.  The bit-packed variant always
has 1024 registers and behaves the same. -/
theorem estimate_defined (h : HyperLogLog) (hne : 1 ≤ h.registers.length)
    (ho : HyperLogLogOptimized) (ln : ℝ → ℝ) :
    0 < HyperLogLog.sum_inv h.registers ∧
    0 ≤ HyperLogLog.count_zero h.registers ∧
    (h.estimate ln = ((h.alphaMM / HyperLogLog.sum_inv h.registers : ℚ) : ℝ) ∨
      (0 < HyperLogLog.count_zero h.registers ∧
        (HyperLogLog.count_zero h.registers : ℝ) ≠ 0 ∧
        h.estimate ln
          = (h.m : ℝ) * ln ((h.m : ℝ) / (HyperLogLog.count_zero h.registers : ℝ)))) ∧
    (∃ (s : ℚ) (V : Int) (e : ℝ), HyperLogLogOptimized.sum_inv ho.registers = .ok s ∧ 0 < s ∧
      HyperLogLogOptimized.count_zero ho.registers = .ok V ∧ 0 ≤ V ∧
      ho.estimate ln = .ok e ∧
      (e = ((ho.alphaMM / s : ℚ) : ℝ) ∨
        (0 < V ∧ (V : ℝ) ≠ 0 ∧ e = (M_REGS : ℝ) * ln ((M_REGS : ℝ) / (V : ℝ))))) := by
  refine ⟨sum_inv_pos hne, count_zero_nonneg _, ?_, ?_⟩
  · rcases normal_estimate_cases ln h with hc | ⟨hV, _, hc⟩
    · exact Or.inl hc
    · exact Or.inr ⟨hV, by exact_mod_cast (ne_of_gt hV), hc⟩
  · have hrel := sameStore_slots ho.registers
    have hst := sameState_of_store ho (slots_list ho.registers) hrel
    have hlen : 1 ≤ (slots_list ho.registers).length := by
      rw [hrel.1]; decide
    refine ⟨_, _, _, sameStore_sum_inv hrel, sum_inv_pos hlen, sameStore_count_zero hrel,
      count_zero_nonneg _, sameState_estimate ln hst, ?_⟩
    have hM : ((M_REGS : Nat) : ℝ) = ((1024 : Int) : ℝ) := by
      have : M_REGS = 1024 := by decide
      rw [this]; norm_num
    rcases estimate_cases_mk ln 10 1024 ho.alphaMM (slots_list ho.registers)
      with hc | ⟨hV, _, hc⟩
    · exact Or.inl hc
    · refine Or.inr ⟨hV, by exact_mod_cast (ne_of_gt hV), ?_⟩
      rw [hM]
      exact hc

theorem estimate_defined_witness :
    0 < HyperLogLog.sum_inv sample16.registers ∧
    0 ≤ HyperLogLog.count_zero sample16.registers ∧
    (sample16.estimate Real.log
        = ((sample16.alphaMM / HyperLogLog.sum_inv sample16.registers : ℚ) : ℝ) ∨
      (0 < HyperLogLog.count_zero sample16.registers ∧
        (HyperLogLog.count_zero sample16.registers : ℝ) ≠ 0 ∧
        sample16.estimate Real.log
          = (sample16.m : ℝ) * Real.log ((sample16.m : ℝ)
              / (HyperLogLog.count_zero sample16.registers : ℝ)))) ∧
    (∃ (s : ℚ) (V : Int) (e : ℝ),
      HyperLogLogOptimized.sum_inv HyperLogLogOptimized.new.registers = .ok s ∧ 0 < s ∧
      HyperLogLogOptimized.count_zero HyperLogLogOptimized.new.registers = .ok V ∧ 0 ≤ V ∧
      HyperLogLogOptimized.new.estimate Real.log = .ok e ∧
      (e = ((HyperLogLogOptimized.new.alphaMM / s : ℚ) : ℝ) ∨
        (0 < V ∧ (V : ℝ) ≠ 0 ∧
          e = (M_REGS : ℝ) * Real.log ((M_REGS : ℝ) / (V : ℝ))))) :=
  estimate_defined sample16 (by decide) HyperLogLogOptimized.new Real.log

theorem get_alpha_pos {m : Int} (hm : 0 < m) : 0 < HyperLogLog.get_alpha m := by
  unfold HyperLogLog.get_alpha
  have hq : (0 : ℚ) < (m : ℚ) := by exact_mod_cast hm
  split_ifs
  · norm_num
  · norm_num
  · norm_num
  · apply div_pos (by norm_num)
    have : (0 : ℚ) < 1.079 / (m : ℚ) := div_pos (by norm_num) hq
    linarith

theorem packed_alpha_eq (m : Int) :
    HyperLogLogOptimized.get_alpha m = HyperLogLog.get_alpha m := rfl

theorem estimate_nonneg_mk (b m : Int) (a : ℚ) (regs : List Int) (ha : 0 ≤ a)
    (hne : 1 ≤ regs.length) (hlen : (regs.length : Int) = m) :
    0 ≤ HyperLogLog.estimate Real.log ⟨b, m, a, regs⟩ := by
  have hs := sum_inv_pos hne
  rcases estimate_cases_mk Real.log b m a regs with hc | ⟨hV, _, hc⟩
  · rw [hc]
    exact_mod_cast div_nonneg ha (le_of_lt hs)
  · rw [hc]
    have hVm : HyperLogLog.count_zero regs ≤ m := by
      rw [← hlen]; exact count_zero_le_length regs
    have hVr : (0 : ℝ) < (HyperLogLog.count_zero regs : ℝ) := by exact_mod_cast hV
    have hVmr : (HyperLogLog.count_zero regs : ℝ) ≤ (m : ℝ) := by exact_mod_cast hVm
    have hm0 : (0 : ℝ) ≤ (m : ℝ) := le_trans (le_of_lt hVr) hVmr
    apply mul_nonneg hm0
    apply Real.log_nonneg
    rw [le_div_iff₀ hVr, one_mul]
    exact hVmr

/-- C14. `estimate()` is non-negative: on every well-formed byte-per-register
state (precision from 4 to 16, `2^b` registers) whose `alphaMM` is the constant
stored at construction, and on every bit-packed state with the constructed
`alphaMM`, the value `estimate()` returns, with the natural logarithm for
`std::log`, is at least 0. -/
theorem estimate_nonneg (h : HyperLogLog) (hwf : h.WF)
    (ha : h.alphaMM = HyperLogLog.get_alpha h.m * (h.m : ℚ) * (h.m : ℚ))
    (ho : HyperLogLogOptimized) (hao : ho.alphaMM = HyperLogLogOptimized.new.alphaMM) :
    0 ≤ h.estimate Real.log ∧
    ∃ e : ℝ, ho.estimate Real.log = .ok e ∧ 0 ≤ e := by
  constructor
  · obtain ⟨b, m, a, regs⟩ := h
    obtain ⟨h4, h16, hm, hlen⟩ := hwf
    have hm2 : m = 2 ^ b.toNat := hm
    have hlen2 : regs.length = 2 ^ b.toNat := hlen
    have ha2 : a = HyperLogLog.get_alpha m * (m : ℚ) * (m : ℚ) := ha
    have hmpos : 0 < m := by rw [hm2]; positivity
    have hmq : (0 : ℚ) < (m : ℚ) := by exact_mod_cast hmpos
    apply estimate_nonneg_mk
    · rw [ha2]
      exact le_of_lt (mul_pos (mul_pos (get_alpha_pos hmpos) hmq) hmq)
    · rw [hlen2]; exact Nat.one_le_two_pow
    · rw [hlen2, hm2]; push_cast; rfl
  · have hrel := sameStore_slots ho.registers
    have hst := sameState_of_store ho (slots_list ho.registers) hrel
    refine ⟨_, sameState_estimate Real.log hst, ?_⟩
    have hM0 : M_REGS = 1024 := by decide
    apply estimate_nonneg_mk
    · rw [hao]
      show 0 ≤ HyperLogLogOptimized.get_alpha (M_REGS : Int) * ((M_REGS : Nat) : ℚ)
        * ((M_REGS : Nat) : ℚ)
      rw [packed_alpha_eq]
      have h1 : (0 : Int) < (M_REGS : Int) := by decide
      have h2 : (0 : ℚ) ≤ ((M_REGS : Nat) : ℚ) := Nat.cast_nonneg _
      exact mul_nonneg (mul_nonneg (le_of_lt (get_alpha_pos h1)) h2) h2
    · rw [hrel.1, hM0]; decide
    · rw [hrel.1]; decide

theorem estimate_nonneg_witness :
    0 ≤ sample16.estimate Real.log ∧
    ∃ e : ℝ, HyperLogLogOptimized.new.estimate Real.log = .ok e ∧ 0 ≤ e :=
  estimate_nonneg sample16 sample16_wf rfl HyperLogLogOptimized.new rfl

theorem get_val_out_of_range (r : Bitset) {idx : Nat} (hi : M_REGS ≤ idx) :
    HyperLogLogOptimized.get_val r idx = .error .outOfRange := by
  have hpos : ¬ (idx * BITS_PER_REG + 0 < TOTAL_BITS) := by
    have h1 : M_REGS = 1024 := by decide
    have h2 : BITS_PER_REG = 5 := rfl
    have h3 : TOTAL_BITS = 5120 := by decide
    rw [h1] at hi
    rw [h2, h3]
    omega
  have hread : r.read (idx * BITS_PER_REG + 0) = .error .outOfRange := by
    simp only [Bitset.read, dif_neg hpos]
  simp only [HyperLogLogOptimized.get_val, range_bits, List.foldlM_cons, hread, bind,
    Except.bind]

/-- C15. Bit-packed slot round trip: for every bitset, every `idx` below 1024
and every `val` from 0 to 31, `set_val(idx, val)` completes, `get_val(idx)`
then returns `val`, `get_val` at every other index returns what it returned
before, and each of the five bit positions `5 * idx + k` it accesses is below
`TOTAL_BITS = 5120`. -/
theorem slot_round_trip (r : Bitset) (idx : Nat) (hi : idx < 1024) (val : Nat)
    (hv : val ≤ 31) :
    ∃ r2, HyperLogLogOptimized.set_val r idx val = .ok r2 ∧
      HyperLogLogOptimized.get_val r2 idx = .ok val ∧
      (∀ idx2, idx2 ≠ idx →
        HyperLogLogOptimized.get_val r2 idx2 = HyperLogLogOptimized.get_val r idx2) ∧
      (∀ k, k < BITS_PER_REG → idx * BITS_PER_REG + k < TOTAL_BITS) ∧
      TOTAL_BITS = 5120 ∧ M_REGS = 1024 ∧ BITS_PER_REG = 5 := by
  have hM : M_REGS = 1024 := by decide
  have hi2 : idx < M_REGS := by rw [hM]; exact hi
  refine ⟨setSlot r idx val, set_val_eq r hi2 val, ?_, ?_, ?_, by decide, hM, rfl⟩
  · rw [get_val_eq _ hi2, slot_setSlot_same r hi2 (by omega)]
  · intro idx2 hne
    by_cases h2 : idx2 < M_REGS
    · rw [get_val_eq _ h2, get_val_eq _ h2, slot_setSlot_other r idx val hne]
    · rw [get_val_out_of_range _ (Nat.le_of_not_lt h2),
        get_val_out_of_range _ (Nat.le_of_not_lt h2)]
  · intro k hk
    exact slot_pos_lt hi2 hk

theorem slot_round_trip_witness :
    ∃ r2, HyperLogLogOptimized.set_val (fun _ => true) 1023 21 = .ok r2 ∧
      HyperLogLogOptimized.get_val r2 1023 = .ok 21 ∧
      (∀ idx2, idx2 ≠ 1023 →
        HyperLogLogOptimized.get_val r2 idx2
          = HyperLogLogOptimized.get_val (fun _ => true) idx2) ∧
      (∀ k, k < BITS_PER_REG → 1023 * BITS_PER_REG + k < TOTAL_BITS) ∧
      TOTAL_BITS = 5120 ∧ M_REGS = 1024 ∧ BITS_PER_REG = 5 :=
  slot_round_trip (fun _ => true) 1023 (by decide) 21 (by decide)

theorem get_alpha_eq_spec (m : Int) : HyperLogLog.get_alpha m = alpha_spec m := by
  unfold HyperLogLog.get_alpha alpha_spec
  split_ifs <;> norm_num

/-- C16. Bias constant at construction: for every precision `b` from 4 to 16
the constructor completes with `m = 2^b` and stores
`alphaMM = alpha(m) * m * m`, where `alpha(m)` is 0.673 for `m = 16`, 0.697
for `m = 32`, 0.709 for `m = 64` and `0.7213 / (1 + 1.079 / m)` otherwise; the
bit-packed constructor stores the value the byte-per-register constructor
stores for `b = 10`. -/
theorem bias_constant (b : Int) (h4 : 4 ≤ b) (h16 : b ≤ 16) :
    (∃ h, HyperLogLog.new b = .ok h ∧ h.m = 2 ^ b.toNat ∧
      h.alphaMM = alpha_spec h.m * (h.m : ℚ) * (h.m : ℚ) ∧
      (b = 4 → h.alphaMM = 673 / 1000 * 16 * 16) ∧
      (b = 5 → h.alphaMM = 697 / 1000 * 32 * 32) ∧
      (b = 6 → h.alphaMM = 709 / 1000 * 64 * 64) ∧
      (7 ≤ b → h.alphaMM
        = (7213 / 10000) / (1 + (1079 / 1000) / (h.m : ℚ)) * (h.m : ℚ) * (h.m : ℚ))) ∧
    (∃ h10, HyperLogLog.new 10 = .ok h10 ∧
      HyperLogLogOptimized.new.alphaMM = h10.alphaMM ∧
      HyperLogLogOptimized.new.alphaMM = alpha_spec 1024 * 1024 * 1024) := by
  constructor
  · refine ⟨_, new_ok (show 0 ≤ b by omega) (show b ≤ 30 by omega), rfl, ?_, ?_, ?_, ?_, ?_⟩
    · show HyperLogLog.get_alpha (2 ^ b.toNat) * _ * _ = _
      rw [get_alpha_eq_spec]
    · intro hb
      subst hb
      show HyperLogLog.get_alpha (2 ^ (4 : Int).toNat) * ((2 ^ (4 : Int).toNat : Int) : ℚ)
        * ((2 ^ (4 : Int).toNat : Int) : ℚ) = _
      have : (4 : Int).toNat = 4 := rfl
      rw [this]
      norm_num [HyperLogLog.get_alpha]
    · intro hb
      subst hb
      show HyperLogLog.get_alpha (2 ^ (5 : Int).toNat) * ((2 ^ (5 : Int).toNat : Int) : ℚ)
        * ((2 ^ (5 : Int).toNat : Int) : ℚ) = _
      have : (5 : Int).toNat = 5 := rfl
      rw [this]
      norm_num [HyperLogLog.get_alpha]
    · intro hb
      subst hb
      show HyperLogLog.get_alpha (2 ^ (6 : Int).toNat) * ((2 ^ (6 : Int).toNat : Int) : ℚ)
        * ((2 ^ (6 : Int).toNat : Int) : ℚ) = _
      have : (6 : Int).toNat = 6 := rfl
      rw [this]
      norm_num [HyperLogLog.get_alpha]
    · intro hb
      show HyperLogLog.get_alpha (2 ^ b.toNat) * _ * _ = _
      have hbig : (2 : Int) ^ 7 ≤ 2 ^ b.toNat :=
        pow_le_pow_right₀ (by norm_num) (by omega)
      have h1 : ¬ ((2 : Int) ^ b.toNat = 16) := by omega
      have h2 : ¬ ((2 : Int) ^ b.toNat = 32) := by omega
      have h3 : ¬ ((2 : Int) ^ b.toNat = 64) := by omega
      unfold HyperLogLog.get_alpha
      rw [if_neg h1, if_neg h2, if_neg h3]
      norm_num
  · refine ⟨_, new_ten, sameState_fresh.2.2.1.symm, ?_⟩
    rw [← sameState_fresh.2.2.1]
    show HyperLogLog.get_alpha 1024 * 1024 * 1024 = _
    rw [get_alpha_eq_spec]

theorem bias_constant_witness :
    (∃ h, HyperLogLog.new 4 = .ok h ∧ h.m = 2 ^ (4 : Int).toNat ∧
      h.alphaMM = alpha_spec h.m * (h.m : ℚ) * (h.m : ℚ) ∧
      ((4 : Int) = 4 → h.alphaMM = 673 / 1000 * 16 * 16) ∧
      ((4 : Int) = 5 → h.alphaMM = 697 / 1000 * 32 * 32) ∧
      ((4 : Int) = 6 → h.alphaMM = 709 / 1000 * 64 * 64) ∧
      ((7 : Int) ≤ 4 → h.alphaMM
        = (7213 / 10000) / (1 + (1079 / 1000) / (h.m : ℚ)) * (h.m : ℚ) * (h.m : ℚ))) ∧
    (∃ h10, HyperLogLog.new 10 = .ok h10 ∧
      HyperLogLogOptimized.new.alphaMM = h10.alphaMM ∧
      HyperLogLogOptimized.new.alphaMM = alpha_spec 1024 * 1024 * 1024) :=
  bias_constant 4 (by decide) (by decide)

theorem loop_iterations {w : Nat} (hw0 : w ≠ 0) (hw : w < 2 ^ 32) :
    ∃ k, k ≤ 31 ∧
      (∀ fuel : Nat, k + 1 ≤ fuel → HyperLogLog.get_rho_loop fuel w 1 = .ok (1 + (k : Int))) ∧
      (∀ fuel : Nat, k + 1 ≤ fuel → HyperLogLogOptimized.get_rho_loop fuel w 1 = .ok (1 + k)) := by
  obtain ⟨k, hk, hlow⟩ := exists_lowest_bit hw0
  have hk32 : k < 32 := lowest_bit_lt hw hk
  refine ⟨k, by omega, ?_, ?_⟩
  · intro fuel hf
    exact normal_loop_eq k fuel w 1 (by omega) hk hlow
  · intro fuel hf
    exact packed_loop_eq k fuel w 1 (by omega) (by omega) hk hlow

/-- C19. `get_rho` terminates: for every 32-bit `w`, with the precision `b`
between 1 and 32, the guard `w == 0` returns `32 - b + 1` without entering the
loop, and for `w != 0` the loop stops after `k <= 31` iterations (`k + 1`
evaluations of its condition suffice) with result `1 + k`; the result lies in
`[1, 32]`, the `uint8_t` counter of the bit-packed variant never wraps (it
returns the same number as the `int` version), and the argument
`w | (1 << sh)` that `add` passes is never zero. -/
theorem get_rho_terminates (b : Int) (hb1 : 1 ≤ b) (hb32 : b ≤ 32) (w : Nat)
    (hw : w < 2 ^ 32) (sh : Nat) (s : List Int) :
    (∃ rho, HyperLogLog.get_rho b w = .ok rho ∧ 1 ≤ rho ∧ rho ≤ 32) ∧
    (w = 0 → ∀ fuel : Nat, HyperLogLog.get_rho_fuel fuel b w = .ok (32 - b + 1) ∧
      HyperLogLogOptimized.get_rho_fuel fuel w = .ok 23) ∧
    (w ≠ 0 → ∃ k, k ≤ 31 ∧
      (∀ fuel : Nat, k + 1 ≤ fuel → HyperLogLog.get_rho_fuel fuel b w = .ok (1 + (k : Int))) ∧
      (∀ fuel : Nat, k + 1 ≤ fuel → HyperLogLogOptimized.get_rho_fuel fuel w = .ok (1 + k))) ∧
    (∃ rho : Nat, HyperLogLogOptimized.get_rho w = .ok rho ∧ 1 ≤ rho ∧ rho ≤ 32 ∧
      rho < 256 ∧ HyperLogLog.get_rho 10 w = .ok (rho : Int)) ∧
    ((HashFuncGen.hash s &&& ((1 <<< sh) - 1)) ||| 1 <<< sh) ≠ 0 := by
  have hzero : ∀ fuel : Nat, HyperLogLogOptimized.get_rho_fuel fuel 0 = .ok 23 := fun _ => rfl
  refine ⟨?_, ?_, ?_, ?_, sentinel_ne_zero _ _⟩
  · by_cases h0 : w = 0
    · subst h0
      refine ⟨32 - b + 1, ?_, by omega, by omega⟩
      simp [HyperLogLog.get_rho, HyperLogLog.get_rho_fuel]
    · obtain ⟨k, hk, hn, _⟩ := loop_iterations h0 hw
      refine ⟨1 + (k : Int), ?_, by omega, by omega⟩
      simp only [HyperLogLog.get_rho, HyperLogLog.get_rho_fuel, if_neg h0]
      exact hn 32 (by omega)
  · intro h0 fuel
    subst h0
    exact ⟨by simp [HyperLogLog.get_rho_fuel], hzero fuel⟩
  · intro h0
    obtain ⟨k, hk, hn, hp⟩ := loop_iterations h0 hw
    refine ⟨k, hk, ?_, ?_⟩
    · intro fuel hf
      simp only [HyperLogLog.get_rho_fuel, if_neg h0]
      exact hn fuel hf
    · intro fuel hf
      simp only [HyperLogLogOptimized.get_rho_fuel, if_neg h0]
      exact hp fuel hf
  · by_cases h0 : w = 0
    · subst h0
      exact ⟨23, hzero 32, by omega, by omega, by omega, rfl⟩
    · obtain ⟨k, hk, hn, hp⟩ := loop_iterations h0 hw
      refine ⟨1 + k, ?_, by omega, by omega, by omega, ?_⟩
      · simp only [HyperLogLogOptimized.get_rho, HyperLogLogOptimized.get_rho_fuel, if_neg h0]
        exact hp 32 (by omega)
      · simp only [HyperLogLog.get_rho, HyperLogLog.get_rho_fuel, if_neg h0]
        rw [hn 32 (by omega)]
        exact congrArg Except.ok (by push_cast; rfl)

theorem get_rho_terminates_witness :
    (∃ rho, HyperLogLog.get_rho 10 2147483648 = .ok rho ∧ 1 ≤ rho ∧ rho ≤ 32) ∧
    ((2147483648 : Nat) = 0 → ∀ fuel : Nat,
      HyperLogLog.get_rho_fuel fuel 10 2147483648 = .ok (32 - 10 + 1) ∧
      HyperLogLogOptimized.get_rho_fuel fuel 2147483648 = .ok 23) ∧
    ((2147483648 : Nat) ≠ 0 → ∃ k, k ≤ 31 ∧
      (∀ fuel : Nat, k + 1 ≤ fuel →
        HyperLogLog.get_rho_fuel fuel 10 2147483648 = .ok (1 + (k : Int))) ∧
      (∀ fuel : Nat, k + 1 ≤ fuel →
        HyperLogLogOptimized.get_rho_fuel fuel 2147483648 = .ok (1 + k))) ∧
    (∃ rho : Nat, HyperLogLogOptimized.get_rho 2147483648 = .ok rho ∧ 1 ≤ rho ∧ rho ≤ 32 ∧
      rho < 256 ∧ HyperLogLog.get_rho 10 2147483648 = .ok (rho : Int)) ∧
    ((HashFuncGen.hash [97] &&& ((1 <<< 22) - 1)) ||| 1 <<< 22) ≠ 0 :=
  get_rho_terminates 10 (by decide) (by decide) 2147483648 (by decide) 22 [97]

theorem lowest_set_bit_eq {w k : Nat} (hk : w.testBit k = true)
    (hlow : ∀ i, i < k → w.testBit i = false) : lowest_set_bit w = k := by
  have hw : w ≠ 0 := by
    intro h
    rw [h] at hk
    simp at hk
  unfold lowest_set_bit
  rw [dif_pos hw, Nat.find_eq_iff]
  refine ⟨hk, ?_⟩
  intro n hn
  rw [hlow n hn]
  exact Bool.false_ne_true

theorem rank_eq (b : Int) {sh w : Nat} (hsh : sh < 32) (hw : w < 2 ^ sh) :
    HyperLogLog.get_rho b (w ||| 1 <<< sh) = .ok ((rank_spec sh w : Nat) : Int) ∧
    HyperLogLogOptimized.get_rho (w ||| 1 <<< sh) = .ok (rank_spec sh w) ∧
    1 ≤ rank_spec sh w ∧ rank_spec sh w ≤ sh + 1 := by
  obtain ⟨k, hk, hk0, hk1, hrho⟩ := normal_rho_sentinel b hsh hw
  obtain ⟨k2, _, hp0, hp1, hprho⟩ := packed_rho_sentinel hsh hw
  have hr : rank_spec sh w = 1 + k := by
    unfold rank_spec
    by_cases h0 : w = 0
    · rw [if_pos h0, hk0 h0, Nat.add_comm]
    · rw [if_neg h0, lowest_set_bit_eq (hk1 h0).1 (hk1 h0).2, Nat.add_comm]
  have hr2 : rank_spec sh w = 1 + k2 := by
    unfold rank_spec
    by_cases h0 : w = 0
    · rw [if_pos h0, hp0 h0, Nat.add_comm]
    · rw [if_neg h0, lowest_set_bit_eq (hp1 h0).1 (hp1 h0).2, Nat.add_comm]
  refine ⟨?_, ?_, by omega, by omega⟩
  · rw [hrho, hr]
    exact congrArg Except.ok (by push_cast; rfl)
  · rw [hprho, hr2]

theorem foldl_max_le_iff {α : Type} [LinearOrder α] (l : List α) :
    ∀ (v0 c : α), l.foldl max v0 ≤ c ↔ v0 ≤ c ∧ ∀ x ∈ l, x ≤ c := by
  induction l with
  | nil => intro v0 c; simp
  | cons x xs ih =>
    intro v0 c
    rw [List.foldl_cons, ih]
    simp only [List.mem_cons, forall_eq_or_imp, max_le_iff]
    tauto

theorem foldl_max_congr {α : Type} [LinearOrder α] {l1 l2 : List α}
    (hmem : ∀ x, x ∈ l1 ↔ x ∈ l2) (v0 : α) :
    l1.foldl max v0 = l2.foldl max v0 := by
  apply le_antisymm
  · rw [foldl_max_le_iff]
    have := (foldl_max_le_iff l2 v0 (l2.foldl max v0)).1 (le_refl _)
    exact ⟨this.1, fun x hx => this.2 x ((hmem x).1 hx)⟩
  · rw [foldl_max_le_iff]
    have := (foldl_max_le_iff l1 v0 (l1.foldl max v0)).1 (le_refl _)
    exact ⟨this.1, fun x hx => this.2 x ((hmem x).2 hx)⟩

theorem foldl_max_attained {α : Type} [LinearOrder α] (l : List α) :
    ∀ v0 : α, l.foldl max v0 = v0 ∨ ∃ x ∈ l, x = l.foldl max v0 := by
  induction l with
  | nil => intro v0; exact Or.inl rfl
  | cons x xs ih =>
    intro v0
    rw [List.foldl_cons]
    rcases ih (max v0 x) with h | ⟨y, hy, hyeq⟩
    · rcases max_choice v0 x with hm | hm
      · left; rw [h, hm]
      · right; exact ⟨x, List.mem_cons_self _ _, by rw [h, hm]⟩
    · right; exact ⟨y, List.mem_cons_of_mem _ hy, hyeq⟩

theorem ranks_mem_congr (sh : Nat) {ss1 ss2 : List (List Int)}
    (hmem : ∀ s, s ∈ ss1 ↔ s ∈ ss2) (j x : Nat) :
    x ∈ ranks sh ss1 j ↔ x ∈ ranks sh ss2 j := by
  simp only [ranks, List.mem_map, List.mem_filter, hmem]

theorem ranks_cons (sh : Nat) (s : List Int) (ss : List (List Int)) (j : Nat) :
    ranks sh (s :: ss) j =
      if HashFuncGen.hash s >>> sh = j then
        rank_spec sh (HashFuncGen.hash s &&& ((1 <<< sh) - 1)) :: ranks sh ss j
      else ranks sh ss j := by
  unfold ranks
  by_cases h : HashFuncGen.hash s >>> sh = j
  · rw [if_pos h, List.filter_cons_of_pos (by simpa using h), List.map_cons]
  · rw [if_neg h, List.filter_cons_of_neg (by simpa using h)]

theorem foldl_max_cast (l : List Nat) :
    ∀ v0 : Nat, List.foldl max (v0 : Int) (List.map (Nat.cast : Nat → Int) l)
      = ((List.foldl max v0 l : Nat) : Int) := by
  induction l with
  | nil => intro v0; rfl
  | cons x xs ih =>
    intro v0
    rw [List.map_cons, List.foldl_cons, List.foldl_cons, ← ih]
    congr 1
    push_cast
    rfl

theorem normal_add_pointwise (h : HyperLogLog) (hwf : h.WF) (s : List Int) :
    ∃ h2, h.add s = .ok h2 ∧ h2.WF ∧ h2.b = h.b ∧ h2.m = h.m ∧ h2.alphaMM = h.alphaMM ∧
      ∀ j : Nat, h2.registers[j]? = (h.registers[j]?).map (fun v =>
        if HashFuncGen.hash s >>> (32 - h.b).toNat = j then
          max v ((rank_spec (32 - h.b).toNat
            (HashFuncGen.hash s &&& ((1 <<< (32 - h.b).toNat) - 1)) : Nat) : Int)
        else v) := by
  obtain ⟨b, m, a, regs⟩ := h
  obtain ⟨h4, h16, hm, hlen⟩ := hwf
  have h4 : 4 ≤ b := h4
  have h16 : b ≤ 16 := h16
  obtain ⟨rho, hj, hrho, _, _, hadd⟩ := normal_add_mk b m a regs h4 h16 hlen s
  have hsh : (32 - b).toNat < 32 := by omega
  have hrk := (rank_eq b hsh (and_mask_lt (HashFuncGen.hash s) (32 - b).toNat)).1
  have hr : rho = ((rank_spec (32 - b).toNat
      (HashFuncGen.hash s &&& ((1 <<< (32 - b).toNat) - 1)) : Nat) : Int) := by
    rw [hrho] at hrk
    exact Except.ok.inj hrk
  refine ⟨_, hadd, ⟨h4, h16, hm, by rw [List.length_set]; exact hlen⟩, rfl, rfl, rfl, ?_⟩
  intro j
  show (regs.set (HashFuncGen.hash s >>> (32 - b).toNat)
      (max (regs.get ⟨HashFuncGen.hash s >>> (32 - b).toNat, hj⟩) rho))[j]? = _
  by_cases hij : HashFuncGen.hash s >>> (32 - b).toNat = j
  · subst hij
    rw [List.getElem?_set_self hj, List.getElem?_eq_getElem hj, Option.map_some', if_pos rfl, hr]
    rfl
  · rw [List.getElem?_set_ne hij]
    cases hget : regs[j]? with
    | none => rfl
    | some v => rw [Option.map_some', if_neg hij]

theorem normal_addAll_closed (ss : List (List Int)) :
    ∀ h : HyperLogLog, h.WF →
      ∃ h2, h.addAll ss = .ok h2 ∧ h2.WF ∧ h2.b = h.b ∧ h2.m = h.m ∧
        h2.alphaMM = h.alphaMM ∧
        ∀ j : Nat, h2.registers[j]? = (h.registers[j]?).map (fun v =>
          List.foldl max v (List.map (Nat.cast : Nat → Int) (ranks (32 - h.b).toNat ss j))) := by
  induction ss with
  | nil =>
    intro h hwf
    refine ⟨h, rfl, hwf, rfl, rfl, rfl, ?_⟩
    intro j
    cases h.registers[j]? <;> rfl
  | cons s ss ih =>
    intro h hwf
    obtain ⟨h1, e1, hwf1, hb1, hm1, ha1, hp1⟩ := normal_add_pointwise h hwf s
    obtain ⟨h2, e2, hwf2, hb2, hm2, ha2, hp2⟩ := ih h1 hwf1
    refine ⟨h2, ?_, hwf2, hb2.trans hb1, hm2.trans hm1, ha2.trans ha1, ?_⟩
    · simp only [HyperLogLog.addAll, List.foldlM_cons, e1, bind, Except.bind]
      exact e2
    · intro j
      rw [hp2 j, hp1 j, hb1, ranks_cons]
      cases h.registers[j]? with
      | none => rfl
      | some v =>
        simp only [Option.map_some']
        by_cases hij : HashFuncGen.hash s >>> (32 - h.b).toNat = j
        · rw [if_pos hij, if_pos hij, List.map_cons, List.foldl_cons]
        · rw [if_neg hij, if_neg hij]

theorem packed_add_pointwise (ho : HyperLogLogOptimized) (s : List Int) :
    ∃ o2, ho.add s = .ok o2 ∧ o2.alphaMM = ho.alphaMM ∧
      ∀ j, j < M_REGS → slot o2.registers j =
        if HashFuncGen.hash s >>> (32 - B_BITS) = j then
          max (slot ho.registers j)
            (rank_spec (32 - B_BITS) (HashFuncGen.hash s &&& ((1 <<< (32 - B_BITS)) - 1)))
        else slot ho.registers j := by
  obtain ⟨rho, hrho, _, h23, hadd⟩ := packed_add_spec ho s
  have hrk := (rank_eq 10 (show 32 - B_BITS < 32 by decide)
    (and_mask_lt (HashFuncGen.hash s) (32 - B_BITS))).2.1
  have hr : rho = rank_spec (32 - B_BITS)
      (HashFuncGen.hash s &&& ((1 <<< (32 - B_BITS)) - 1)) := by
    rw [hrho] at hrk
    exact Except.ok.inj hrk
  refine ⟨_, hadd, rfl, ?_⟩
  intro j hj
  show slot (if rho > slot ho.registers (HashFuncGen.hash s >>> (32 - B_BITS))
        then setSlot ho.registers (HashFuncGen.hash s >>> (32 - B_BITS)) rho
        else ho.registers) j = _
  by_cases hij : HashFuncGen.hash s >>> (32 - B_BITS) = j
  · subst hij
    rw [slot_set_if_greater_same _ hj (by omega), if_pos rfl, hr]
  · rw [slot_set_if_greater_other _ _ _ (fun e => hij e.symm), if_neg hij]

theorem packed_addAll_closed (ss : List (List Int)) :
    ∀ ho : HyperLogLogOptimized,
      ∃ o2, ho.addAll ss = .ok o2 ∧ o2.alphaMM = ho.alphaMM ∧
        ∀ j, j < M_REGS →
          slot o2.registers j = List.foldl max (slot ho.registers j) (ranks (32 - B_BITS) ss j) := by
  induction ss with
  | nil =>
    intro ho
    exact ⟨ho, rfl, rfl, fun _ _ => rfl⟩
  | cons s ss ih =>
    intro ho
    obtain ⟨o1, e1, ha1, hp1⟩ := packed_add_pointwise ho s
    obtain ⟨o2, e2, ha2, hp2⟩ := ih o1
    refine ⟨o2, ?_, ha2.trans ha1, ?_⟩
    · simp only [HyperLogLogOptimized.addAll, List.foldlM_cons, e1, bind, Except.bind]
      exact e2
    · intro j hj
      rw [hp2 j hj, hp1 j hj, ranks_cons]
      by_cases hij : HashFuncGen.hash s >>> (32 - B_BITS) = j
      · rw [if_pos hij, if_pos hij, List.foldl_cons]
      · rw [if_neg hij, if_neg hij]

theorem bitsVal_inj : ∀ a0 a1 a2 a3 a4 b0 b1 b2 b3 b4 : Bool,
    bitsVal a0 a1 a2 a3 a4 = bitsVal b0 b1 b2 b3 b4 →
      a0 = b0 ∧ a1 = b1 ∧ a2 = b2 ∧ a3 = b3 ∧ a4 = b4 := by
  decide

theorem bitset_ext_slots {r1 r2 : Bitset} (h : ∀ j, j < M_REGS → slot r1 j = slot r2 j) :
    r1 = r2 := by
  funext p
  have hB : BITS_PER_REG = 5 := rfl
  have hT : TOTAL_BITS = 5120 := by decide
  have hM : M_REGS = 1024 := by decide
  have hp : p.val < 5120 := lt_of_lt_of_eq p.isLt hT
  have hj : p.val / 5 < M_REGS := by rw [hM]; omega
  have hs := h (p.val / 5) hj
  unfold slot at hs
  obtain ⟨e0, e1, e2, e3, e4⟩ := bitsVal_inj _ _ _ _ _ _ _ _ _ _ hs
  have hbit : ∀ r : Bitset, ∀ q : Nat, q = p.val → bitAt r q = r p := by
    intro r q hq
    subst hq
    unfold bitAt
    rw [dif_pos p.isLt]
  rw [hB] at e0 e1 e2 e3 e4
  have hk : p.val % 5 < 5 := Nat.mod_lt _ (by norm_num)
  have hdecomp : p.val = p.val / 5 * 5 + p.val % 5 := by omega
  rcases (by omega : p.val % 5 = 0 ∨ p.val % 5 = 1 ∨ p.val % 5 = 2 ∨ p.val % 5 = 3 ∨
    p.val % 5 = 4) with c | c | c | c | c
  · rw [← hbit r1 (p.val / 5 * 5 + 0) (by omega), ← hbit r2 (p.val / 5 * 5 + 0) (by omega)]
    exact e0
  · rw [← hbit r1 (p.val / 5 * 5 + 1) (by omega), ← hbit r2 (p.val / 5 * 5 + 1) (by omega)]
    exact e1
  · rw [← hbit r1 (p.val / 5 * 5 + 2) (by omega), ← hbit r2 (p.val / 5 * 5 + 2) (by omega)]
    exact e2
  · rw [← hbit r1 (p.val / 5 * 5 + 3) (by omega), ← hbit r2 (p.val / 5 * 5 + 3) (by omega)]
    exact e3
  · rw [← hbit r1 (p.val / 5 * 5 + 4) (by omega), ← hbit r2 (p.val / 5 * 5 + 4) (by omega)]
    exact e4

theorem state_eq {x y : HyperLogLog} (hb : x.b = y.b) (hm : x.m = y.m)
    (ha : x.alphaMM = y.alphaMM) (hr : x.registers = y.registers) : x = y := by
  cases x
  cases y
  simp only [HyperLogLog.mk.injEq]
  exact ⟨hb, hm, ha, hr⟩

theorem packed_state_eq {x y : HyperLogLogOptimized} (ha : x.alphaMM = y.alphaMM)
    (hr : x.registers = y.registers) : x = y := by
  cases x
  cases y
  simp only [HyperLogLogOptimized.mk.injEq]
  exact ⟨ha, hr⟩

theorem normal_addAll_set (h : HyperLogLog) (hwf : h.WF) {ss1 ss2 : List (List Int)}
    (hmem : ∀ s, s ∈ ss1 ↔ s ∈ ss2) :
    ∃ x, h.addAll ss1 = .ok x ∧ h.addAll ss2 = .ok x := by
  obtain ⟨x1, e1, _, hb1, hm1, ha1, hp1⟩ := normal_addAll_closed ss1 h hwf
  obtain ⟨x2, e2, _, hb2, hm2, ha2, hp2⟩ := normal_addAll_closed ss2 h hwf
  have heq : x2 = x1 := by
    apply state_eq (hb2.trans hb1.symm) (hm2.trans hm1.symm) (ha2.trans ha1.symm)
    apply List.ext_getElem?
    intro j
    rw [hp1 j, hp2 j]
    cases h.registers[j]? with
    | none => rfl
    | some v =>
      simp only [Option.map_some']
      congr 1
      apply foldl_max_congr
      intro x
      simp only [List.mem_map, ranks_mem_congr (32 - h.b).toNat hmem j]
  rw [heq] at e2
  exact ⟨x1, e1, e2⟩

theorem packed_addAll_set (ho : HyperLogLogOptimized) {ss1 ss2 : List (List Int)}
    (hmem : ∀ s, s ∈ ss1 ↔ s ∈ ss2) :
    ∃ x, ho.addAll ss1 = .ok x ∧ ho.addAll ss2 = .ok x := by
  obtain ⟨x1, e1, ha1, hp1⟩ := packed_addAll_closed ss1 ho
  obtain ⟨x2, e2, ha2, hp2⟩ := packed_addAll_closed ss2 ho
  have heq : x2 = x1 := by
    apply packed_state_eq (ha2.trans ha1.symm)
    apply bitset_ext_slots
    intro j hj
    rw [hp1 j hj, hp2 j hj]
    exact foldl_max_congr (fun x => (ranks_mem_congr (32 - B_BITS) hmem j x).symm) _
  rw [heq] at e2
  exact ⟨x1, e1, e2⟩

theorem closed_form_max (sh : Nat) (ss : List (List Int)) (j : Nat) :
    (∀ s ∈ ss, HashFuncGen.hash s >>> sh = j →
      rank_spec sh (HashFuncGen.hash s &&& ((1 <<< sh) - 1)) ≤ closed_form sh ss j) ∧
    (closed_form sh ss j = 0 ∨ ∃ s ∈ ss, HashFuncGen.hash s >>> sh = j ∧
      rank_spec sh (HashFuncGen.hash s &&& ((1 <<< sh) - 1)) = closed_form sh ss j) ∧
    ((∀ s ∈ ss, HashFuncGen.hash s >>> sh ≠ j) → closed_form sh ss j = 0) := by
  have hle := (foldl_max_le_iff (ranks sh ss j) 0 (closed_form sh ss j)).1 (le_refl _)
  have hat := foldl_max_attained (ranks sh ss j) 0
  have hmem : ∀ x, x ∈ ranks sh ss j ↔ ∃ s ∈ ss, HashFuncGen.hash s >>> sh = j ∧
      rank_spec sh (HashFuncGen.hash s &&& ((1 <<< sh) - 1)) = x := by
    intro x
    simp only [ranks, List.mem_map, List.mem_filter, decide_eq_true_eq, and_assoc]
  refine ⟨?_, ?_, ?_⟩
  · intro s hs hb
    exact hle.2 _ ((hmem _).2 ⟨s, hs, hb, rfl⟩)
  · rcases hat with h0 | ⟨x, hx, hxeq⟩
    · exact Or.inl h0
    · obtain ⟨s, hs, hb, hr⟩ := (hmem x).1 hx
      exact Or.inr ⟨s, hs, hb, hr.trans hxeq⟩
  · intro hnone
    rcases hat with h0 | ⟨x, hx, _⟩
    · exact h0
    · obtain ⟨s, hs, hb, _⟩ := (hmem x).1 hx
      exact absurd hb (hnone s hs)

/-- C17. Closed form of the register state: for every precision `b` from 4
to 16 and every sequence of strings added to a fresh estimator, register `j`
is `closed_form`, the maximum over the added strings whose bucket
`hash(s) >> (32 - b)` is `j` of the rank of the low `32 - b` bits of
`hash(s)`, and 0 when no added string falls in bucket `j`; the same holds for
the bit-packed estimator.  Hence two sequences with the same set of strings
leave the same state, whatever their order and multiplicities. -/
theorem register_closed_form (b : Int) (h4 : 4 ≤ b) (h16 : b ≤ 16)
    (ss ss2 : List (List Int)) (hset : ∀ s, s ∈ ss ↔ s ∈ ss2) :
    (∃ h0 h, HyperLogLog.new b = .ok h0 ∧ h0.addAll ss = .ok h ∧
      (∀ j, j < 2 ^ b.toNat →
        h.registers[j]? = some ((closed_form (32 - b).toNat ss j : Nat) : Int)) ∧
      h0.addAll ss2 = .ok h) ∧
    (∃ ho, HyperLogLogOptimized.new.addAll ss = .ok ho ∧
      (∀ j, j < M_REGS →
        HyperLogLogOptimized.get_val ho.registers j = .ok (closed_form (32 - B_BITS) ss j)) ∧
      HyperLogLogOptimized.new.addAll ss2 = .ok ho) ∧
    (∀ (sh j : Nat),
      (∀ s ∈ ss, HashFuncGen.hash s >>> sh = j →
        rank_spec sh (HashFuncGen.hash s &&& ((1 <<< sh) - 1)) ≤ closed_form sh ss j) ∧
      (closed_form sh ss j = 0 ∨ ∃ s ∈ ss, HashFuncGen.hash s >>> sh = j ∧
        rank_spec sh (HashFuncGen.hash s &&& ((1 <<< sh) - 1)) = closed_form sh ss j) ∧
      ((∀ s ∈ ss, HashFuncGen.hash s >>> sh ≠ j) → closed_form sh ss j = 0)) := by
  refine ⟨?_, ?_, fun sh j => closed_form_max sh ss j⟩
  · have e0 := new_ok (show 0 ≤ b by omega) (show b ≤ 30 by omega)
    have hwf0 := fresh_wf b h4 h16
    obtain ⟨h, e1, e2⟩ := normal_addAll_set _ hwf0 hset
    obtain ⟨hx, ex, _, _, _, _, hp⟩ := normal_addAll_closed ss _ hwf0
    have hhx : hx = h := by
      rw [e1] at ex
      exact (Except.ok.inj ex).symm
    subst hhx
    refine ⟨_, hx, e0, e1, ?_, e2⟩
    intro j hj
    rw [hp j]
    show Option.map _ ((List.replicate (2 ^ b.toNat) (0 : Int))[j]?) = _
    rw [List.getElem?_replicate, if_pos hj, Option.map_some']
    have := foldl_max_cast (ranks (32 - b).toNat ss j) 0
    rw [closed_form, ← this]
    rfl
  · obtain ⟨ho, e1, e2⟩ := packed_addAll_set HyperLogLogOptimized.new hset
    obtain ⟨ox, ex, _, hp⟩ := packed_addAll_closed ss HyperLogLogOptimized.new
    have hox : ox = ho := by
      rw [e1] at ex
      exact (Except.ok.inj ex).symm
    subst hox
    refine ⟨ox, e1, ?_, e2⟩
    intro j hj
    rw [get_val_eq _ hj, hp j hj]
    show Except.ok (List.foldl max (slot (fun _ => false) j) _) = _
    rw [slot_zero]
    rfl

theorem register_closed_form_witness :
    (∃ h0 h, HyperLogLog.new 4 = .ok h0 ∧ h0.addAll [[97], [98], [97]] = .ok h ∧
      (∀ j, j < 2 ^ (4 : Int).toNat →
        h.registers[j]?
          = some ((closed_form (32 - (4 : Int)).toNat [[97], [98], [97]] j : Nat) : Int)) ∧
      h0.addAll [[98], [97]] = .ok h) ∧
    (∃ ho, HyperLogLogOptimized.new.addAll [[97], [98], [97]] = .ok ho ∧
      (∀ j, j < M_REGS →
        HyperLogLogOptimized.get_val ho.registers j
          = .ok (closed_form (32 - B_BITS) [[97], [98], [97]] j)) ∧
      HyperLogLogOptimized.new.addAll [[98], [97]] = .ok ho) ∧
    (∀ (sh j : Nat),
      (∀ s ∈ [[97], [98], [97]], HashFuncGen.hash s >>> sh = j →
        rank_spec sh (HashFuncGen.hash s &&& ((1 <<< sh) - 1))
          ≤ closed_form sh [[97], [98], [97]] j) ∧
      (closed_form sh [[97], [98], [97]] j = 0 ∨
        ∃ s ∈ [[97], [98], [97]], HashFuncGen.hash s >>> sh = j ∧
          rank_spec sh (HashFuncGen.hash s &&& ((1 <<< sh) - 1))
            = closed_form sh [[97], [98], [97]] j) ∧
      ((∀ s ∈ [[97], [98], [97]], HashFuncGen.hash s >>> sh ≠ j) →
        closed_form sh [[97], [98], [97]] j = 0)) :=
  register_closed_form 4 (by decide) (by decide) [[97], [98], [97]] [[98], [97]]
    (by intro s; simp only [List.mem_cons, List.mem_singleton, List.not_mem_nil]; tauto)

/-- C18. Order insensitivity: from every well-formed byte-per-register state
and every bit-packed state, for all strings `s` and `t`, `add(s)` followed by
`add(t)` and `add(t)` followed by `add(s)` both complete and leave the same
state. -/
theorem order_insensitivity (h : HyperLogLog) (hwf : h.WF) (ho : HyperLogLogOptimized)
    (s t : List Int) :
    (∃ h1 h2 hst, h.add s = .ok h1 ∧ h1.add t = .ok hst ∧
      h.add t = .ok h2 ∧ h2.add s = .ok hst) ∧
    (∃ o1 o2 ost, ho.add s = .ok o1 ∧ o1.add t = .ok ost ∧
      ho.add t = .ok o2 ∧ o2.add s = .ok ost) := by
  have hmem : ∀ x : List Int, x ∈ [s, t] ↔ x ∈ [t, s] := by
    intro x
    simp only [List.mem_cons, List.mem_singleton, List.not_mem_nil, or_false]
    exact Or.comm
  constructor
  · obtain ⟨hst, e1, e2⟩ := normal_addAll_set h hwf hmem
    obtain ⟨h1, a1, _⟩ := normal_add_wf h hwf s
    obtain ⟨h2, a2, _⟩ := normal_add_wf h hwf t
    simp only [HyperLogLog.addAll, List.foldlM_cons, List.foldlM_nil, a1, bind, Except.bind]
      at e1
    simp only [HyperLogLog.addAll, List.foldlM_cons, List.foldlM_nil, a2, bind, Except.bind]
      at e2
    refine ⟨h1, h2, hst, a1, ?_, a2, ?_⟩
    · cases hx : h1.add t with
      | error e => rw [hx] at e1; exact absurd e1 (by simp [pure, Except.pure])
      | ok x => rw [hx] at e1; exact e1
    · cases hx : h2.add s with
      | error e => rw [hx] at e2; exact absurd e2 (by simp [pure, Except.pure])
      | ok x => rw [hx] at e2; exact e2
  · obtain ⟨ost, e1, e2⟩ := packed_addAll_set ho hmem
    obtain ⟨o1, a1, _⟩ := packed_add_le ho s
    obtain ⟨o2, a2, _⟩ := packed_add_le ho t
    simp only [HyperLogLogOptimized.addAll, List.foldlM_cons, List.foldlM_nil, a1, bind,
      Except.bind] at e1
    simp only [HyperLogLogOptimized.addAll, List.foldlM_cons, List.foldlM_nil, a2, bind,
      Except.bind] at e2
    refine ⟨o1, o2, ost, a1, ?_, a2, ?_⟩
    · cases hx : o1.add t with
      | error e => rw [hx] at e1; exact absurd e1 (by simp [pure, Except.pure])
      | ok x => rw [hx] at e1; exact e1
    · cases hx : o2.add s with
      | error e => rw [hx] at e2; exact absurd e2 (by simp [pure, Except.pure])
      | ok x => rw [hx] at e2; exact e2

theorem order_insensitivity_witness :
    (∃ h1 h2 hst, sample16.add [97] = .ok h1 ∧ h1.add [98, 99] = .ok hst ∧
      sample16.add [98, 99] = .ok h2 ∧ h2.add [97] = .ok hst) ∧
    (∃ o1 o2 ost, HyperLogLogOptimized.new.add [97] = .ok o1 ∧ o1.add [98, 99] = .ok ost ∧
      HyperLogLogOptimized.new.add [98, 99] = .ok o2 ∧ o2.add [97] = .ok ost) :=
  order_insensitivity sample16 sample16_wf HyperLogLogOptimized.new [97] [98, 99]

end HLL
